import Mathlib

/-!
Verification model of the HAR mock server (`src/api-mock-server.js`).

The JavaScript source is shallowly embedded in Lean.  Strings are modelled
as `List Char` (`Str`), JavaScript `Map` objects as association lists in
insertion order, and the JSON values handled by `JSON.parse` /
`JSON.stringify` by the mutual inductive type `JVal`.

Modelling fragment (documented deviations from the JavaScript runtime,
each noted again at the definition it concerns):
* strings are sequences of Unicode scalar values; lexicographic comparison
  agrees with JavaScript's UTF-16 comparison on the BMP;
* `\s` (and `trim`) cover the ASCII whitespace characters;
* percent-decoding covers ASCII escapes (`%XX` with `XX < 0x80`);
* the JSON model covers integer numbers and escape-free strings, no
  floating point and no backslash escape sequences;
* `querystring.parse`'s `maxKeys` truncation (default 1000) is not
  modelled; all concrete inputs stay far below it.
-/

/-- JavaScript strings, modelled as lists of characters. -/
abbrev Str := List Char

/-- ASCII whitespace recognised by the regular-expression class `\s`
and by `String.prototype.trim` (fragment: non-ASCII whitespace such as
NBSP is outside the model). -/
def isWsChar (c : Char) : Bool :=
  c = ' ' || c = '\t' || c = '\n' || c = '\x0d' || c = '\x0b' || c = '\x0c'

/-- One step of `replace(/\s+/g, ' ')`: every maximal run of whitespace
becomes a single space. -/
def collapseWs : Str → Str
  | [] => []
  | [c] => if isWsChar c then [' '] else [c]
  | c1 :: c2 :: rest =>
    if isWsChar c1 then
      if isWsChar c2 then collapseWs (c2 :: rest)
      else ' ' :: collapseWs (c2 :: rest)
    else c1 :: collapseWs (c2 :: rest)

/-- `String.prototype.trim()` on the ASCII fragment. -/
def jsTrim (s : Str) : Str :=
  ((s.dropWhile isWsChar).reverse.dropWhile isWsChar).reverse

/-- `s.replace(/\s+/g, ' ').trim()`, the non-JSON body normalization of
`generateRequestKey` (src/api-mock-server.js:285). -/
def normWhitespace (s : Str) : Str :=
  jsTrim (collapseWs s)

/-- `toUpperCase` on the ASCII fragment. -/
def strUpper (s : Str) : Str := s.map Char.toUpper

/-- `toLowerCase` on the ASCII fragment. -/
def strLower (s : Str) : Str := s.map Char.toLower

/-- Split a list at every occurrence of a separator character; the
separators are dropped.  Mirrors `String.prototype.split` with a
one-character separator. -/
def splitOnChar (sep : Char) : Str → List Str
  | [] => [[]]
  | c :: rest =>
    if c = sep then
      [] :: splitOnChar sep rest
    else
      match splitOnChar sep rest with
      | [] => [[c]]
      | seg :: segs => (c :: seg) :: segs

/-- Join segments with a separator character (`Array.prototype.join`). -/
def joinWithChar (sep : Char) : List Str → Str
  | [] => []
  | [seg] => seg
  | seg :: segs => seg ++ sep :: joinWithChar sep segs

/-- Numeric value of a hexadecimal digit. -/
def hexVal (c : Char) : Option Nat :=
  if '0' ≤ c ∧ c ≤ '9' then some (c.toNat - '0'.toNat)
  else if 'a' ≤ c ∧ c ≤ 'f' then some (c.toNat - 'a'.toNat + 10)
  else if 'A' ≤ c ∧ c ≤ 'F' then some (c.toNat - 'A'.toNat + 10)
  else none

/-- Percent-decoding and `+`-to-space decoding applied by
`querystring.parse` to every key and value.  Fragment: only ASCII escapes
(`%XX` with `XX < 0x80`) are decoded; malformed escapes are kept verbatim,
as Node's fallback decoder does. -/
def decodeQS : Str → Str
  | [] => []
  | '+' :: rest => ' ' :: decodeQS rest
  | '%' :: a :: b :: rest =>
    match hexVal a, hexVal b with
    | some ha, some hb =>
      if ha * 16 + hb < 128 then Char.ofNat (ha * 16 + hb) :: decodeQS rest
      else '%' :: decodeQS (a :: b :: rest)
    | _, _ => '%' :: decodeQS (a :: b :: rest)
  | c :: rest => c :: decodeQS rest

/-- Split one `name=value` fragment at the first `=` (absent `=` yields an
empty value), as `querystring.parse` does. -/
def qsPairOfSegment (seg : Str) : Str × Str :=
  let name := seg.takeWhile (· ≠ '=')
  let rest := seg.dropWhile (· ≠ '=')
  match rest with
  | [] => (decodeQS name, [])
  | _ :: v => (decodeQS name, decodeQS v)

/-- Append a value under a name in the accumulated multi-map, preserving
first-occurrence order of names (JavaScript object property creation with
array promotion for repeated names). -/
def qsInsert (k : Str) (v : Str) : List (Str × List Str) → List (Str × List Str)
  | [] => [(k, [v])]
  | (k', vs) :: rest =>
    if k = k' then (k', vs ++ [v]) :: rest
    else (k', vs) :: qsInsert k v rest

/-- Model of Node's `querystring.parse`: split on `&`, drop empty
segments, split each segment at its first `=`, decode, and group repeated
names into value arrays (first-occurrence order). -/
def qsParse (q : Str) : List (Str × List Str) :=
  ((splitOnChar '&' q).filter (· ≠ [])).foldl
    (fun acc seg =>
      let p := qsPairOfSegment seg
      qsInsert p.1 p.2 acc)
    []

/-- `Object.keys(params).sort()`: JavaScript's default array sort compares
strings lexicographically. -/
def sortPairsByName (ps : List (Str × List Str)) : List (Str × List Str) :=
  List.insertionSort (fun a b => a.1 ≤ b.1) ps

/-- Template-literal rendering `${key}=${params[key]}`: a value array is
rendered by `Array.prototype.toString`, i.e. joined with commas. -/
def renderQSPair (p : Str × List Str) : Str :=
  p.1 ++ '=' :: joinWithChar ',' p.2

/-- `sortQueryString` (src/api-mock-server.js:296-303): parse the query,
sort the parameter names, and re-serialize.  Note that value arrays are
NOT sorted; they are rendered in original order, joined with commas. -/
def sortQueryString (q : Str) : Str :=
  if q = [] then []
  else joinWithChar '&' ((sortPairsByName (qsParse q)).map renderQSPair)

-- sanity checks (removed from reasoning path; plain examples)
example : sortQueryString ("b=2&a=1".toList) = ("a=1&b=2".toList) := by decide
example : sortQueryString ("a=2&a=1".toList) = ("a=2,1".toList) := by decide
example : sortQueryString ("a=1&a=2".toList) = ("a=1,2".toList) := by decide
example : sortQueryString ("a=%26b".toList) = ("a=&b".toList) := by decide
example : sortQueryString ("a=&b".toList) = ("a=&b=".toList) := by decide
example : normWhitespace ("  a \t b ".toList) = ("a b".toList) := by decide

/-! ## JSON model

`JSON.parse` / `JSON.stringify` on the fragment described above:
integer numbers, escape-free strings, arrays and objects. -/

mutual
/-- A JavaScript value produced by `JSON.parse` (model fragment). -/
inductive JVal where
  | jnull : JVal
  | jbool (b : Bool) : JVal
  | jnum (n : Int) : JVal
  | jstr (s : Str) : JVal
  | jarr (xs : JArr) : JVal
  | jobj (fs : JObj) : JVal
  deriving DecidableEq
/-- Array of JSON values. -/
inductive JArr where
  | nil : JArr
  | cons (hd : JVal) (tl : JArr) : JArr
  deriving DecidableEq
/-- Object fields in property order (keys unique, as in a JS object). -/
inductive JObj where
  | nil : JObj
  | cons (k : Str) (v : JVal) (tl : JObj) : JObj
  deriving DecidableEq
end

def JArr.toList : JArr → List JVal
  | .nil => []
  | .cons x xs => x :: xs.toList

def JArr.ofList : List JVal → JArr
  | [] => .nil
  | x :: xs => .cons x (ofList xs)

def JObj.toList : JObj → List (Str × JVal)
  | .nil => []
  | .cons k v fs => (k, v) :: fs.toList

def JObj.ofList : List (Str × JVal) → JObj
  | [] => .nil
  | (k, v) :: fs => .cons k v (ofList fs)

/-- Digit character for a value below 10. -/
def digitChar (n : Nat) : Char := Char.ofNat ('0'.toNat + n)

/-- Decimal digits of a natural number (fuelled; `natRepr` supplies
enough fuel). -/
def natReprAux : Nat → Nat → Str
  | 0, _ => []
  | fuel + 1, n =>
    if n < 10 then [digitChar n]
    else natReprAux fuel (n / 10) ++ [digitChar (n % 10)]

/-- Decimal representation of a natural number. -/
def natRepr (n : Nat) : Str := natReprAux (n + 1) n

/-- `JSON.stringify` output for an integer (JavaScript prints integral
doubles without fraction; `-0` cannot arise from `Int`). -/
def intRepr (n : Int) : Str :=
  if n < 0 then '-' :: natRepr n.natAbs else natRepr n.toNat

mutual
/-- `JSON.stringify` (compact, no spacing — the source always calls it
with a single argument).  Fragment: string contents are emitted verbatim,
which is faithful for strings free of `"`, `\` and control characters;
the parser below only ever produces such strings. -/
def render : JVal → Str
  | .jnull => "null".toList
  | .jbool true => "true".toList
  | .jbool false => "false".toList
  | .jnum n => intRepr n
  | .jstr s => '"' :: s ++ ['"']
  | .jarr xs => '[' :: joinWithChar ',' (renderArrList xs) ++ [']']
  | .jobj fs => '\x7b' :: joinWithChar ',' (renderObjList fs) ++ ['\x7d']
/-- Rendered array elements, in order. -/
def renderArrList : JArr → List Str
  | .nil => []
  | .cons x xs => render x :: renderArrList xs
/-- Rendered object members, in property order. -/
def renderObjList : JObj → List Str
  | .nil => []
  | .cons k v fs => ('"' :: k ++ '"' :: ':' :: render v) :: renderObjList fs
end

/-- Whitespace accepted between JSON tokens by `JSON.parse`. -/
def isJsonWs (c : Char) : Bool :=
  c = ' ' || c = '\t' || c = '\n' || c = '\x0d'

def skipJsonWs (s : Str) : Str := s.dropWhile isJsonWs

/-- A character that may appear raw inside a JSON string (escape-free
fragment): anything except `"`, `\` and control characters. -/
def isJStrChar (c : Char) : Bool :=
  c ≠ '"' && c ≠ '\\' && 0x20 ≤ c.toNat

def isDigitChar (c : Char) : Bool := '0' ≤ c && c ≤ '9'

/-- Read the characters of a string literal up to the closing quote. -/
def readJStr : Str → Option (Str × Str)
  | [] => none
  | c :: rest =>
    if c = '"' then some ([], rest)
    else if isJStrChar c then
      match readJStr rest with
      | some (s, rest') => some (c :: s, rest')
      | none => none
    else none

/-- Digit-run value: `digits` is consumed left to right. -/
def digitsVal (ds : Str) : Nat :=
  ds.foldl (fun acc c => acc * 10 + (c.toNat - '0'.toNat)) 0

/-- Read an unsigned JSON integer (`0`, or a nonzero digit followed by
digits); rejects a leading zero followed by more digits, as the JSON
grammar does. -/
def readJNat : Str → Option (Nat × Str)
  | [] => none
  | c :: rest =>
    if c = '0' then
      match rest with
      | d :: _ => if isDigitChar d then none else some (0, rest)
      | [] => some (0, [])
    else if isDigitChar c then
      let ds := rest.takeWhile isDigitChar
      some (digitsVal (c :: ds), rest.dropWhile isDigitChar)
    else none

/-- Value of a property, if present. -/
def objLookup (k : Str) : JObj → Option JVal
  | .nil => none
  | .cons k' v tl => if k = k' then some v else objLookup k tl

/-- Remove a property (first occurrence). -/
def objErase (k : Str) : JObj → JObj
  | .nil => .nil
  | .cons k' v tl => if k = k' then tl else .cons k' v (objErase k tl)

/-- Prepend a parsed object member to the members parsed after it,
with JavaScript duplicate-key semantics for `JSON.parse`: a repeated key
keeps its first (earliest) position but receives the value of its last
assignment. -/
def objCombine (k : Str) (v : JVal) (fs : JObj) : JObj :=
  match objLookup k fs with
  | some v' => .cons k v' (objErase k fs)
  | none => .cons k v fs

/-- Does the string start with the given prefix?  (Used for the literal
tokens `null`, `true`, `false`.) -/
def strStarts : Str → Str → Bool
  | [], _ => true
  | _ :: _, [] => false
  | p :: ps, c :: cs => p = c && strStarts ps cs

mutual
/-- Recursive-descent model of `JSON.parse` (value position), fuelled so
that all definitions reduce by kernel evaluation. -/
def parseVal : Nat → Str → Option (JVal × Str)
  | 0, _ => none
  | fuel + 1, s =>
    match s with
    | [] => none
    | c :: rest =>
      if c = 'n' then
        if strStarts ("ull".toList) rest then some (.jnull, rest.drop 3) else none
      else if c = 't' then
        if strStarts ("rue".toList) rest then some (.jbool true, rest.drop 3) else none
      else if c = 'f' then
        if strStarts ("alse".toList) rest then some (.jbool false, rest.drop 4) else none
      else if c = '"' then
        match readJStr rest with
        | some (str, rest') => some (.jstr str, rest')
        | none => none
      else if c = '-' then
        match readJNat rest with
        | some (n, rest') => some (.jnum (-(n : Int)), rest')
        | none => none
      else if c = '[' then
        let rest' := skipJsonWs rest
        match rest' with
        | ']' :: rest'' => some (.jarr .nil, rest'')
        | _ => match parseArrItems fuel rest' with
          | some (xs, rest'') => some (.jarr xs, rest'')
          | none => none
      else if c = '\x7b' then
        let rest' := skipJsonWs rest
        match rest' with
        | '\x7d' :: rest'' => some (.jobj .nil, rest'')
        | _ => match parseObjItems fuel rest' with
          | some (fs, rest'') => some (.jobj fs, rest'')
          | none => none
      else
        match readJNat s with
        | some (n, rest') => some (.jnum (n : Int), rest')
        | none => none
/-- One or more array elements followed by `]`. -/
def parseArrItems : Nat → Str → Option (JArr × Str)
  | 0, _ => none
  | fuel + 1, s =>
    match parseVal fuel s with
    | some (v, rest) =>
      match skipJsonWs rest with
      | ',' :: rest' =>
        match parseArrItems fuel (skipJsonWs rest') with
        | some (xs, rest'') => some (.cons v xs, rest'')
        | none => none
      | ']' :: rest' => some (.cons v .nil, rest')
      | _ => none
    | none => none
/-- One or more object members followed by the closing brace. -/
def parseObjItems : Nat → Str → Option (JObj × Str)
  | 0, _ => none
  | fuel + 1, s =>
    match s with
    | '"' :: rest =>
      match readJStr rest with
      | some (k, rest') =>
        match skipJsonWs rest' with
        | ':' :: rest'' =>
          match parseVal fuel (skipJsonWs rest'') with
          | some (v, rest3) =>
            match skipJsonWs rest3 with
            | ',' :: rest4 =>
              match parseObjItems fuel (skipJsonWs rest4) with
              | some (fs, rest5) => some (objCombine k v fs, rest5)
              | none => none
            | '\x7d' :: rest4 => some (objCombine k v .nil, rest4)
            | _ => none
          | none => none
        | _ => none
      | none => none
    | _ => none
end

/-- Fuel that always suffices for `parseVal` on `s`. -/
def jsonFuel (s : Str) : Nat := 2 * s.length + 4

/-- Model of `JSON.parse` on a whole text: surrounding whitespace is
allowed, trailing garbage is a parse error. -/
def parseJson (s : Str) : Option JVal :=
  match parseVal (jsonFuel s) (skipJsonWs s) with
  | some (v, rest) => if skipJsonWs rest = [] then some v else none
  | none => none

example : parseJson ("\x7b\"b\":2,\"a\":1\x7d".toList) =
    some (.jobj (.cons ("b".toList) (.jnum 2) (.cons ("a".toList) (.jnum 1) .nil))) := by decide
example : parseJson (" [1, \"x y\", null] ".toList) =
    some (.jarr (.cons (.jnum 1) (.cons (.jstr ("x y".toList)) (.cons .jnull .nil)))) := by decide
example : parseJson ("\x7b\"a\":1,\"a\":2\x7d".toList) =
    some (.jobj (.cons ("a".toList) (.jnum 2) .nil)) := by decide
example : parseJson ("[01]".toList) = none := by decide
example : parseJson ("\"a\tb\"".toList) = none := by decide
example : parseJson ("-5".toList) = some (.jnum (-5)) := by decide
example : render (.jobj (.cons ("a".toList) (.jnum 1) .nil)) = "\x7b\"a\":1\x7d".toList := by decide

/-- Key order used by `Object.keys(obj).sort()`: lexicographic on the
key strings. -/
def fieldLe (a b : Str × JVal) : Bool := decide (a.1 ≤ b.1)

/-- Sort an object's members by key (`Object.keys(obj).sort()` followed
by rebuilding the object in that order). -/
def sortFields (fs : JObj) : JObj :=
  JObj.ofList (List.insertionSort (fun a b => fieldLe a b) fs.toList)

mutual
/-- `sortObjectKeys` (src/api-mock-server.js:247-262): scalars and `null`
pass through, arrays are normalized element-wise without reordering,
objects get their keys sorted and their values recursed.  (The source
sorts keys and then recurses into each value; recursing first and then
sorting, as here, builds the same object.  The `instanceof Date` branch
of the source is unreachable from `JSON.parse` output and has no
counterpart in the model.) -/
def sortObjectKeys : JVal → JVal
  | .jnull => .jnull
  | .jbool b => .jbool b
  | .jnum n => .jnum n
  | .jstr s => .jstr s
  | .jarr xs => .jarr (sortObjectKeysArr xs)
  | .jobj fs => .jobj (sortFields (sortObjectKeysObj fs))
/-- Element-wise normalization of an array (order preserved). -/
def sortObjectKeysArr : JArr → JArr
  | .nil => .nil
  | .cons x xs => .cons (sortObjectKeys x) (sortObjectKeysArr xs)
/-- Value-wise normalization of an object's members (order preserved;
`sortObjectKeys` then sorts the result). -/
def sortObjectKeysObj : JObj → JObj
  | .nil => .nil
  | .cons k v fs => .cons k (sortObjectKeys v) (sortObjectKeysObj fs)
end

/-- `normalizeJson` (src/api-mock-server.js:235-242): when the text
parses as JSON, stringify the key-sorted value; otherwise return the
text unchanged. -/
def normalizeJson (s : Str) : Str :=
  match parseJson s with
  | some obj => render (sortObjectKeys obj)
  | none => s

/-- The body-normalization step of `generateRequestKey`
(src/api-mock-server.js:277-287): when `normalizeJson` changed the text
it is treated as JSON and the normalized form is used; otherwise
whitespace is collapsed. -/
def normBody (t : Str) : Str :=
  let normalizedBody := normalizeJson t
  if normalizedBody ≠ t then normalizedBody
  else normWhitespace t

/-- HAR `postData` (only its `text` member is consulted by the source). -/
structure PostData where
  text : Option Str
  deriving DecidableEq

/-- Truthiness test `postData && postData.text && postData.text.trim()`
(src/api-mock-server.js:277). -/
def postDataHasText : Option PostData → Option Str
  | none => none
  | some pd =>
    match pd.text with
    | none => none
    | some t => if t ≠ [] ∧ jsTrim t ≠ [] then some t else none

/-- `generateRequestKey` (src/api-mock-server.js:267-291): uppercase
method and path, then `?<sorted query>` when a query is present, then
`:body:<normalized body>` when a non-blank body text is present. -/
def generateRequestKey (method path queryString : Str)
    (postData : Option PostData) : Str :=
  let key := strUpper method ++ ':' :: path
  let key :=
    if queryString ≠ [] then key ++ '?' :: sortQueryString queryString
    else key
  match postDataHasText postData with
  | some t => key ++ (":body:".toList) ++ normBody t
  | none => key

example : normalizeJson ("\x7b\"b\":2,\"a\":1\x7d".toList) = ("\x7b\"a\":1,\"b\":2\x7d".toList) := by decide
example : normalizeJson ("\x7b\"a\":1,\"b\":2\x7d".toList) = ("\x7b\"a\":1,\"b\":2\x7d".toList) := by decide
example : normalizeJson ("\x7b\"x\":[3,1,2]\x7d".toList) = ("\x7b\"x\":[3,1,2]\x7d".toList) := by decide
example : normBody ("\x7b\"b\":2, \"a\":1\x7d".toList) = ("\x7b\"a\":1,\"b\":2\x7d".toList) := by decide
example : normBody ("hello   world".toList) = ("hello world".toList) := by decide
example : generateRequestKey ("get".toList) ("/users".toList) ("b=2&a=1".toList) none
    = ("GET:/users?a=1&b=2".toList) := by decide
example : generateRequestKey ("POST".toList) ("/login".toList) []
    (some ⟨some ("\x7b\"user\":\"a\",\"pass\":\"b\"\x7d".toList)⟩)
    = ("POST:/login:body:\x7b\"pass\":\"b\",\"user\":\"a\"\x7d".toList) := by decide

/-! ## HAR archive and server state -/

/-- A recorded response header. -/
structure HarHeader where
  name : Str
  value : Str
  deriving DecidableEq

/-- Recorded response content (`content.text`; an empty string is falsy
for the `harResponse.content && harResponse.content.text` check). -/
structure HarContent where
  text : Option Str
  deriving DecidableEq

/-- A recorded response.  `status` 0 is falsy (`harResponse.status || 200`). -/
structure HarResponse where
  status : Nat
  headers : List HarHeader
  content : Option HarContent
  deriving DecidableEq

/-- A recorded request. -/
structure HarRequest where
  method : Str
  url : Str
  postData : Option PostData
  deriving DecidableEq

/-- One archive entry. -/
structure HarEntry where
  request : HarRequest
  response : HarResponse
  deriving DecidableEq

/-- The value stored in `requestMap` for one registered entry
(src/api-mock-server.js:160-168). -/
structure MapRecord where
  request : HarRequest
  response : HarResponse
  index : Nat
  path : Str
  method : Str
  originalUrl : Str
  queryParams : Str
  deriving DecidableEq

/-- One variant stored in an API group (src/api-mock-server.js:181-188). -/
structure Variant where
  queryParams : Str
  postData : Option PostData
  response : HarResponse
  originalUrl : Str
  requestKey : Str
  index : Nat
  deriving DecidableEq

/-- An API group: all variants recorded for one `METHOD:PATH`
(src/api-mock-server.js:172-178). -/
structure ApiGroup where
  method : Str
  path : Str
  variants : List Variant
  deriving DecidableEq

/-- A JavaScript `Map`, modelled as an association list in insertion
order (an overwrite keeps the original position). -/
def mapGet {β : Type} (m : List (Str × β)) (k : Str) : Option β :=
  match m.find? (fun p => p.1 = k) with
  | some p => some p.2
  | none => none

/-- `Map.prototype.set`: overwrite in place or append. -/
def mapSet {β : Type} (m : List (Str × β)) (k : Str) (v : β) : List (Str × β) :=
  match m with
  | [] => [(k, v)]
  | (k', v') :: rest =>
    if k' = k then (k, v) :: rest
    else (k', v') :: mapSet rest k v

/-- `Map.prototype.has`. -/
def mapHas {β : Type} (m : List (Str × β)) (k : Str) : Bool :=
  (mapGet m k).isSome

/-- The mock server's in-memory state: the signature index and the
method+path grouping table. -/
structure ServerState where
  requestMap : List (Str × MapRecord)
  apiGroups : List (Str × ApiGroup)
  deriving DecidableEq

def emptyState : ServerState := ⟨[], []⟩

/-- Model of `new URL(request.url)` restricted to absolute `http(s)`
URLs whose path and query are already in canonical form (no dot
segments, no characters requiring percent-escaping): returns
`(pathname, search-without-?)`.  A URL outside this fragment fails,
which the loader treats like the `catch` branch of the source. -/
def parseURL (url : Str) : Option (Str × Str) :=
  let afterScheme :=
    if strStarts ("http://".toList) url then some (url.drop 7)
    else if strStarts ("https://".toList) url then some (url.drop 8)
    else none
  match afterScheme with
  | none => none
  | some rest =>
    let host := rest.takeWhile (fun c => c ≠ '/' ∧ c ≠ '?' ∧ c ≠ '#')
    if host = [] then none
    else
      let after := rest.dropWhile (fun c => c ≠ '/' ∧ c ≠ '?' ∧ c ≠ '#')
      let beforeFrag := after.takeWhile (· ≠ '#')
      let path := beforeFrag.takeWhile (· ≠ '?')
      let query :=
        match beforeFrag.dropWhile (· ≠ '?') with
        | [] => []
        | _ :: q => q
      some ((if path = [] then ['/'] else path), query)

/-- `this.requestMap.set(requestKey, {...})` (src/api-mock-server.js:160). -/
def registerRecord (st : ServerState) (key : Str) (record : MapRecord) : ServerState :=
  ⟨mapSet st.requestMap key record, st.apiGroups⟩

/-- `if (!this.apiGroups.has(apiKey)) this.apiGroups.set(apiKey, {...,
variants: []})` (src/api-mock-server.js:172-178). -/
def ensureGroup (st : ServerState) (apiKey method path : Str) : ServerState :=
  if mapHas st.apiGroups apiKey then st
  else ⟨st.requestMap, mapSet st.apiGroups apiKey ⟨method, path, []⟩⟩

/-- `this.apiGroups.get(apiKey).variants.push({...})`
(src/api-mock-server.js:181-188). -/
def pushVariant (st : ServerState) (apiKey : Str) (variant : Variant) : ServerState :=
  match mapGet st.apiGroups apiKey with
  | some g =>
    ⟨st.requestMap, mapSet st.apiGroups apiKey ⟨g.method, g.path, g.variants ++ [variant]⟩⟩
  | none => st

/-- Process one HAR entry (the body of the `forEach` in
`processHAREntries`, src/api-mock-server.js:142-196): parse the URL,
compute the request key, store the record (last write wins), make sure
the method+path group exists, and append the variant to it; a URL parse
failure skips the entry. -/
def processEntry (st : ServerState) (index : Nat) (entry : HarEntry) : ServerState :=
  match parseURL entry.request.url with
  | none => st
  | some (basePath, queryParams) =>
    let requestKey := generateRequestKey entry.request.method basePath
      queryParams entry.request.postData
    let record : MapRecord :=
      ⟨entry.request, entry.response, index, basePath, entry.request.method,
        entry.request.url, queryParams⟩
    let apiKey := entry.request.method ++ ':' :: basePath
    let variant : Variant :=
      ⟨queryParams, entry.request.postData, entry.response,
        entry.request.url, requestKey, index⟩
    pushVariant
      (ensureGroup (registerRecord st requestKey record) apiKey
        entry.request.method basePath)
      apiKey variant

/-- The `forEach` of `processHAREntries` from a given starting index. -/
def processFrom (index : Nat) (st : ServerState) : List HarEntry → ServerState
  | [] => st
  | e :: es => processFrom (index + 1) (processEntry st index e) es

/-- `processHAREntries` (src/api-mock-server.js:141-196), restricted to
its state-building effect. -/
def processHAREntries (entries : List HarEntry) : ServerState :=
  processFrom 0 emptyState entries

/-! ## Matcher: the six strategies of `findMatchingEntry` -/

/-- A token of the pattern built by `findByPathPattern`
(src/api-mock-server.js:443-448): a literal character, or one of the
three wildcard classes substituted for numeric IDs, UUIDs and ObjectIds. -/
inductive PTok where
  | lit (c : Char) : PTok
  | digits : PTok
  | hex36 : PTok
  | hex24 : PTok
  deriving DecidableEq

/-- First replacement `replace(/\/\d+/g, '/\\d+')`: a slash followed by a
maximal digit run becomes a slash and a digit wildcard.  The `inRun` flag
skips the digits already absorbed by an emitted wildcard. -/
def patStage1 (inRun : Bool) : Str → List PTok
  | [] => []
  | c :: rest =>
    if inRun && isDigitChar c then patStage1 true rest
    else if c = '/' then
      match rest with
      | d :: _ =>
        if isDigitChar d then PTok.lit '/' :: PTok.digits :: patStage1 true rest
        else PTok.lit '/' :: patStage1 false rest
      | [] => [PTok.lit '/']
    else PTok.lit c :: patStage1 false rest

/-- Character class `[a-f0-9\-]` under the `i` flag. -/
def isHex36Char (c : Char) : Bool :=
  isDigitChar c || ('a' ≤ c.toLower && c.toLower ≤ 'f') || c = '-'

/-- Character class `[a-f0-9]` under the `i` flag. -/
def isHex24Char (c : Char) : Bool :=
  isDigitChar c || ('a' ≤ c.toLower && c.toLower ≤ 'f')

/-- Consume exactly `n` literal tokens of a character class. -/
def takeClassLits (cls : Char → Bool) : Nat → List PTok → Option (List PTok)
  | 0, ts => some ts
  | n + 1, PTok.lit c :: ts => if cls c then takeClassLits cls n ts else none
  | _ + 1, _ => none

/-- Replacement `replace(/\/[a-f0-9\-]{36}/gi, ...)` (and its 24-char
variant) on the token string: a literal slash followed by exactly 36 (24)
class characters becomes a slash and the class wildcard; earlier
wildcards are opaque to the scan, as the replaced text `\d+` cannot take
part in a class run. -/
def patStageCls (cls : Char → Bool) (n : Nat) (tok : PTok) :
    Nat → List PTok → List PTok
  | 0, ts => ts
  | _ + 1, [] => []
  | fuel + 1, PTok.lit '/' :: ts =>
    match takeClassLits cls n ts with
    | some rest => PTok.lit '/' :: tok :: patStageCls cls n tok fuel rest
    | none => PTok.lit '/' :: patStageCls cls n tok fuel ts
  | fuel + 1, t :: ts => t :: patStageCls cls n tok fuel ts

/-- The pattern `findByPathPattern` builds from a recorded path, as
tokens.  The final two `replace` calls of the source only escape `/` and
`.` for the regex engine and leave the matched language unchanged.
Fragment: recorded paths made of characters without regex meaning
(letters, digits, `/`, `.`, `-`, `_`); other metacharacters would be
interpreted or rejected by `new RegExp` and are outside the model. -/
def buildPatternToks (path : Str) : List PTok :=
  let s1 := patStage1 false path
  let s2 := patStageCls isHex36Char 36 PTok.hex36 (s1.length + 1) s1
  patStageCls isHex24Char 24 PTok.hex24 (s2.length + 1) s2

/-- Case-insensitive character comparison (`i` flag, ASCII fragment). -/
def charIEq (c x : Char) : Bool := c.toLower = x.toLower

/-- Consume exactly `n` characters of a class. -/
def consumeClass (cls : Char → Bool) : Nat → Str → Option Str
  | 0, s => some s
  | n + 1, c :: s => if cls c then consumeClass cls n s else none
  | _ + 1, [] => none

mutual
/-- Backtracking matcher for `^pattern$` with the `i` flag: `matchToks`
decides whether the whole string matches the token list (`\d+` via
`matchMoreDigits`, which tries every split — equivalent to greedy
matching with backtracking for the boolean result). -/
def matchToks : Nat → List PTok → Str → Bool
  | 0, _, _ => false
  | _ + 1, [], s => s = []
  | _ + 1, PTok.lit _ :: _, [] => false
  | fuel + 1, PTok.lit c :: ts, x :: xs => charIEq c x && matchToks fuel ts xs
  | _ + 1, PTok.digits :: _, [] => false
  | fuel + 1, PTok.digits :: ts, x :: xs =>
    isDigitChar x && matchMoreDigits fuel ts xs
  | fuel + 1, PTok.hex36 :: ts, s =>
    match consumeClass isHex36Char 36 s with
    | some rest => matchToks fuel ts rest
    | none => false
  | fuel + 1, PTok.hex24 :: ts, s =>
    match consumeClass isHex24Char 24 s with
    | some rest => matchToks fuel ts rest
    | none => false
/-- After at least one digit has been consumed by `\d+`: either the rest
of the pattern matches here, or consume one more digit. -/
def matchMoreDigits : Nat → List PTok → Str → Bool
  | 0, _, _ => false
  | fuel + 1, ts, s =>
    matchToks fuel ts s ||
      (match s with
       | y :: ys => isDigitChar y && matchMoreDigits fuel ts ys
       | [] => false)
end

/-- `regex.test(pathname)` for the built pattern. -/
def patternTest (entryPath pathname : Str) : Bool :=
  let toks := buildPatternToks entryPath
  matchToks (toks.length + pathname.length + 2) toks pathname

/-- `findByPathPattern` (src/api-mock-server.js:439-457): scan the
request map in insertion order and return the first entry whose method
matches (case-insensitively via `toUpperCase`) and whose path pattern
matches the requested pathname. -/
def findByPathPattern (st : ServerState) (method pathname : Str) : Option MapRecord :=
  let rec go : List (Str × MapRecord) → Option MapRecord
    | [] => none
    | (_, entry) :: rest =>
      if strUpper entry.method = strUpper method && patternTest entry.path pathname
      then some entry
      else go rest
  go st.requestMap

/-- `replace(/\/$/, '')`: drop one trailing slash. -/
def stripTrailingSlash (s : Str) : Str :=
  match s.reverse with
  | '/' :: rest => rest.reverse
  | _ => s

/-- `findByFuzzyMatch` (src/api-mock-server.js:462-474): first entry
with matching method whose lowercased, trailing-slash-stripped path
equals the likewise normalized requested pathname. -/
def findByFuzzyMatch (st : ServerState) (method pathname : Str) : Option MapRecord :=
  let normalizedPathname := stripTrailingSlash (strLower pathname)
  let rec go : List (Str × MapRecord) → Option MapRecord
    | [] => none
    | (_, entry) :: rest =>
      if strUpper entry.method = strUpper method &&
          stripTrailingSlash (strLower entry.path) = normalizedPathname
      then some entry
      else go rest
  go st.requestMap

/-- Strategies 5 and 6 in sequence. -/
def findPatternOrFuzzy (st : ServerState) (method pathname : Str) : Option MapRecord :=
  match findByPathPattern st method pathname with
  | some entry => some entry
  | none => findByFuzzyMatch st method pathname

/-- `findMatchingEntry` (src/api-mock-server.js:359-397), all six
strategies in source order.  Strategy 4 *returns* the map lookup of the
first variant's key unconditionally once a nonempty group exists, so a
(hypothetical) miss there would end the search without trying
strategies 5 and 6. -/
def findMatchingEntry (st : ServerState) (method pathname queryString : Str)
    (bodyText : Option Str) : Option MapRecord :=
  let s1 :=
    match bodyText with
    | some t =>
      if t ≠ [] then
        mapGet st.requestMap
          (generateRequestKey method pathname queryString (some ⟨some t⟩))
      else none
    | none => none
  match s1 with
  | some entry => some entry
  | none =>
    match mapGet st.requestMap (generateRequestKey method pathname queryString none) with
    | some entry => some entry
    | none =>
      match mapGet st.requestMap (generateRequestKey method pathname [] none) with
      | some entry => some entry
      | none =>
        let apiKey := method ++ ':' :: pathname
        match mapGet st.apiGroups apiKey with
        | some group =>
          match group.variants with
          | firstVariant :: _ => mapGet st.requestMap firstVariant.requestKey
          | [] => findPatternOrFuzzy st method pathname
        | none => findPatternOrFuzzy st method pathname

/-- `checkPathExists` as the spec's `hasPath` oracle: is any variant
recorded under this exact `METHOD:PATH` group key? -/
def hasPath (st : ServerState) (method pathname : Str) : Bool :=
  mapHas st.apiGroups (method ++ ':' :: pathname)

/-! ## Responder -/

/-- Headers skipped when replaying a recorded response
(src/api-mock-server.js:494-497). -/
def skipHeaders : List Str :=
  [ "content-encoding".toList, "content-length".toList,
    "transfer-encoding".toList, "connection".toList, "upgrade".toList,
    "host".toList, "origin".toList, "referer".toList ]

/-- The per-header `forEach` of `sendMockedResponse`
(src/api-mock-server.js:491-509): denylisted headers are skipped;
every other header is attempted with `res.set` inside its own
`try`/`catch`, so one failure is logged and the loop continues.  The
success of the live `res.set` call is abstracted by the oracle `setOk`.
Returns the headers applied and the names warned about, in order. -/
def applyHeaders (headers : List HarHeader) (setOk : HarHeader → Bool) :
    List HarHeader × List Str :=
  match headers with
  | [] => ([], [])
  | h :: rest =>
    let r := applyHeaders rest setOk
    if strLower h.name ∈ skipHeaders then r
    else if setOk h then (h :: r.1, r.2)
    else (r.1, h.name :: r.2)

/-- Does the haystack contain the needle as a contiguous run
(`String.prototype.includes`)? -/
def containsSeq (needle : Str) : Str → Bool
  | [] => strStarts needle []
  | c :: rest => strStarts needle (c :: rest) || containsSeq needle rest

/-- `getContentType` (src/api-mock-server.js:546-554). -/
def getContentType (harResponse : HarResponse) : Option Str :=
  match harResponse.headers.find? (fun h => strLower h.name = "content-type".toList) with
  | some h => some h.value
  | none => none

/-- What is written on the live response body. -/
inductive BodyOut where
  | jsonBody (v : JVal) : BodyOut
  | textBody (s : Str) : BodyOut
  | emptyBody : BodyOut
  deriving DecidableEq

/-- Observable effect of `sendMockedResponse` on the live response. -/
structure MockResponse where
  status : Nat
  headersSet : List HarHeader
  headerWarnings : List Str
  corsInjected : Bool
  body : BodyOut
  deriving DecidableEq

/-- `sendMockedResponse` (src/api-mock-server.js:479-541): recorded
status (default 200), filtered headers, CORS backstop when no
`Access-Control-Allow-Origin` survived, and the recorded body — parsed
as JSON when the recorded content type includes `application/json` and
the text parses, raw text otherwise, empty when there is no content
text. -/
def sendMockedResponse (matchedEntry : MapRecord) (setOk : HarHeader → Bool) :
    MockResponse :=
  let harResponse := matchedEntry.response
  let statusCode := if harResponse.status = 0 then 200 else harResponse.status
  let applied := applyHeaders harResponse.headers setOk
  let corsInjected :=
    !(applied.1.any (fun h => strLower h.name = "access-control-allow-origin".toList))
  let body :=
    match harResponse.content with
    | some content =>
      match content.text with
      | some t =>
        if t ≠ [] then
          match getContentType harResponse with
          | some ct =>
            if containsSeq ("application/json".toList) ct then
              match parseJson t with
              | some v => BodyOut.jsonBody v
              | none => BodyOut.textBody t
            else BodyOut.textBody t
          | none => BodyOut.textBody t
        else BodyOut.emptyBody
      | none => BodyOut.emptyBody
    | none => BodyOut.emptyBody
  ⟨statusCode, applied.1, applied.2, corsInjected, body⟩

/-- One element of the diagnostic endpoint list. -/
structure EndpointInfo where
  method : Str
  path : Str
  key : Str
  deriving DecidableEq

/-- `getAvailableEndpoints` (src/api-mock-server.js:424-434): every map
entry projected to method/path/key, then `slice(0, 10)`. -/
def getAvailableEndpoints (st : ServerState) : List EndpointInfo :=
  ((st.requestMap.map (fun p => EndpointInfo.mk p.2.method p.2.path p.1)).take 10)

/-- The `requested` object of the 404 payload. -/
structure RequestedInfo where
  method : Str
  path : Str
  query : Option Str
  timestamp : Str
  deriving DecidableEq

/-- Observable effect of `handleNotFound`. -/
structure NotFoundResponse where
  status : Nat
  error : Str
  requested : RequestedInfo
  availableEndpoints : List EndpointInfo
  deriving DecidableEq

/-- `handleNotFound` (src/api-mock-server.js:402-419); `new Date()` is
abstracted by the `now` parameter, and `queryString || null` maps the
empty string to `none`. -/
def handleNotFound (st : ServerState) (method pathname queryString now : Str) :
    NotFoundResponse :=
  ⟨404, "No matching request found in HAR file".toList,
    ⟨method, pathname, (if queryString = [] then none else some queryString), now⟩,
    getAvailableEndpoints st⟩

/-- Outcome of `handleRequest` on the live response. -/
inductive HandleResult where
  | replay (r : MockResponse) : HandleResult
  | notFound (r : NotFoundResponse) : HandleResult
  deriving DecidableEq

/-- `handleRequest` (src/api-mock-server.js:308-354) after the transport
layer has produced method, pathname, query string and body text: a match
is replayed, anything else gets the 404 payload. -/
def handleRequest (st : ServerState) (method pathname queryString : Str)
    (bodyText : Option Str) (setOk : HarHeader → Bool) (now : Str) : HandleResult :=
  match findMatchingEntry st method pathname queryString bodyText with
  | some matchedEntry => .replay (sendMockedResponse matchedEntry setOk)
  | none => .notFound (handleNotFound st method pathname queryString now)

/-! ## Specification-side definitions

These follow the wording of the (amended) claims and of spec section 4.4,
to be compared with the embedded source functions. -/

/-- Strategy 1 as worded: signature lookup with query and body, attempted
only when body text is present and non-empty. -/
def strategyWithBody (st : ServerState) (m p q : Str) (b : Option Str) :
    Option MapRecord :=
  match b with
  | some t =>
    if t = [] then none
    else mapGet st.requestMap (generateRequestKey m p q (some ⟨some t⟩))
  | none => none

/-- Strategy 2 as worded: signature lookup with query, no body. -/
def strategyNoBody (st : ServerState) (m p q : Str) : Option MapRecord :=
  mapGet st.requestMap (generateRequestKey m p q none)

/-- Strategy 3 as worded: signature lookup with neither query nor body. -/
def strategyNoQuery (st : ServerState) (m p : Str) : Option MapRecord :=
  mapGet st.requestMap (generateRequestKey m p [] none)

/-- Strategy 4 as worded: when a nonempty group exists for
`METHOD:PATH`, the chain commits to the map lookup of the first
variant's stored key (even a missing key then ends the chain);
otherwise the strategy passes. -/
def strategyGroup (st : ServerState) (m p : Str) : Option (Option MapRecord) :=
  match mapGet st.apiGroups (m ++ ':' :: p) with
  | some group =>
    match group.variants with
    | firstVariant :: _ => some (mapGet st.requestMap firstVariant.requestKey)
    | [] => none
  | none => none

/-- The matcher chain as the amended claim describes it: strategies 1-3
in order, then the committing group fallback, then regex pattern
matching, then case-insensitive fuzzy path comparison. -/
def specMatchChain (st : ServerState) (m p q : Str) (b : Option Str) :
    Option MapRecord :=
  match strategyWithBody st m p q b with
  | some e => some e
  | none =>
    match strategyNoBody st m p q with
    | some e => some e
    | none =>
      match strategyNoQuery st m p with
      | some e => some e
      | none =>
        match strategyGroup st m p with
        | some committed => committed
        | none =>
          match findByPathPattern st m p with
          | some e => some e
          | none => findByFuzzyMatch st m p

mutual
/-- "Equal up to reordering of object keys" (claim C4), decidably:
scalars must be equal, arrays are compared element-wise in order, and an
object on the left must find each of its keys in the object on the
right (first occurrence) with an equivalent value, the right object
being exhausted in the process. -/
def keyPermEq : JVal → JVal → Bool
  | .jnull, .jnull => true
  | .jbool a, .jbool b => a = b
  | .jnum a, .jnum b => a = b
  | .jstr a, .jstr b => a = b
  | .jarr xs, .jarr ys => keyPermEqArr xs ys
  | .jobj fs, .jobj gs => keyPermEqObj fs gs
  | _, _ => false
/-- Element-wise equivalence of arrays (order significant). -/
def keyPermEqArr : JArr → JArr → Bool
  | .nil, .nil => true
  | .cons x xs, .cons y ys => keyPermEq x y && keyPermEqArr xs ys
  | _, _ => false
/-- Key-set equivalence of objects with equivalent values. -/
def keyPermEqObj : JObj → JObj → Bool
  | .nil, gs => gs = .nil
  | .cons k v fs, gs =>
    match objLookup k gs with
    | some w => keyPermEq v w && keyPermEqObj fs (objErase k gs)
    | none => false
end

mutual
/-- Well-formedness of a JSON value in the model fragment: every string
scalar and every key is escape-free, and object keys are unique.  Every
value produced by `parseJson` is well formed. -/
def jwf : JVal → Bool
  | .jnull => true
  | .jbool _ => true
  | .jnum _ => true
  | .jstr s => s.all (fun c => isJStrChar c)
  | .jarr xs => jwfArr xs
  | .jobj fs => jwfObj fs
/-- Well-formedness of array elements. -/
def jwfArr : JArr → Bool
  | .nil => true
  | .cons x xs => jwf x && jwfArr xs
/-- Well-formedness of object members (including key uniqueness). -/
def jwfObj : JObj → Bool
  | .nil => true
  | .cons k v fs =>
    k.all (fun c => isJStrChar c) && !(objLookup k fs).isSome && jwf v && jwfObj fs
end

/-! ## Concrete fixtures used by closed theorems -/

/-- A recorded 200 response with a small JSON body. -/
def respJson (body : Str) : HarResponse :=
  ⟨200, [⟨"content-type".toList, "application/json".toList⟩], some ⟨some body⟩⟩

/-- Archive: one entry `GET http://h/users/7`. -/
def archUsers7 : List HarEntry :=
  [⟨⟨"GET".toList, "http://h/users/7".toList, none⟩, respJson ("\x7b\"id\":7\x7d".toList)⟩]

/-- Loaded state for `archUsers7`. -/
def stUsers7 : ServerState := processHAREntries archUsers7

/-- Archive: one entry `GET http://h/p?a=1`. -/
def archQueryA1 : List HarEntry :=
  [⟨⟨"GET".toList, "http://h/p?a=1".toList, none⟩, respJson ("\x7b\"r\":1\x7d".toList)⟩]

/-- Loaded state for `archQueryA1`. -/
def stQueryA1 : ServerState := processHAREntries archQueryA1

/-- Archive with two entries recorded at the identical URL, so that both
produce the same signature; the responses differ (status 200 vs 201). -/
def archCollide : List HarEntry :=
  [ ⟨⟨"GET".toList, "http://h/p".toList, none⟩, ⟨200, [], some ⟨some ("first".toList)⟩⟩⟩,
    ⟨⟨"GET".toList, "http://h/p".toList, none⟩, ⟨201, [], some ⟨some ("second".toList)⟩⟩⟩ ]

/-- Loaded state for `archCollide`. -/
def stCollide : ServerState := processHAREntries archCollide

/-- The shared signature of both `archCollide` entries. -/
def collideKey : Str := generateRequestKey ("GET".toList) ("/p".toList) [] none

/-- Is the outcome a replay of a recorded entry? -/
def isReplay : HandleResult → Bool
  | .replay _ => true
  | .notFound _ => false

/-- Status code written on the live response. -/
def resultStatus : HandleResult → Nat
  | .replay r => r.status
  | .notFound r => r.status

/-- Body written on a replayed response. -/
def resultBody : HandleResult → Option BodyOut
  | .replay r => some r.body
  | .notFound _ => none

/-- Record registered for the single entry of `archUsers7`. -/
def recUsers7 : MapRecord :=
  ⟨⟨"GET".toList, "http://h/users/7".toList, none⟩,
    respJson ("\x7b\"id\":7\x7d".toList), 0, "/users/7".toList,
    "GET".toList, "http://h/users/7".toList, []⟩

/-- Record registered for the single entry of `archQueryA1`. -/
def recQueryA1 : MapRecord :=
  ⟨⟨"GET".toList, "http://h/p?a=1".toList, none⟩,
    respJson ("\x7b\"r\":1\x7d".toList), 0, "/p".toList,
    "GET".toList, "http://h/p?a=1".toList, "a=1".toList⟩


/-- Fixture for the header-filtering theorems: a recorded response with a
denylisted header, a header whose live `res.set` fails, and an ordinary
header after them. -/
def recHeaders : MapRecord :=
  ⟨⟨"GET".toList, "http://h/x".toList, none⟩,
    ⟨200,
      [⟨"Origin".toList, "o".toList⟩, ⟨"X-Bad".toList, "1".toList⟩,
        ⟨"X-Trace".toList, "2".toList⟩],
      none⟩,
    0, "/x".toList, "GET".toList, "http://h/x".toList, []⟩

/-- Header-set oracle that fails exactly on `X-Bad`. -/
def okSkipBad : HarHeader → Bool := fun h => h.name ≠ ("X-Bad".toList)

/-- Structural properties of a parsed query pair that hold for every
pair produced by `qsParse` on percent-free input: the name is free of
`&`, `=`, `%`, `+`; at least one value exists; values are free of `&`,
`%`, `+`. -/
def GoodPair (p : Str × List Str) : Prop :=
  '&' ∉ p.1 ∧ '=' ∉ p.1 ∧ '%' ∉ p.1 ∧ '+' ∉ p.1 ∧ p.2 ≠ [] ∧
    ∀ v ∈ p.2, '&' ∉ v ∧ '%' ∉ v ∧ '+' ∉ v

mutual
/-- Fuel consumed by `parseVal` on the rendering of a value (used to
state the parser/serializer round trip). -/
def fuelV : JVal → Nat
  | .jnull => 1
  | .jbool _ => 1
  | .jnum _ => 1
  | .jstr _ => 1
  | .jarr xs => 2 + fuelA xs
  | .jobj fs => 2 + fuelO fs
/-- Fuel for the elements of an array. -/
def fuelA : JArr → Nat
  | .nil => 0
  | .cons x xs => 2 + fuelV x + fuelA xs
/-- Fuel for the members of an object. -/
def fuelO : JObj → Nat
  | .nil => 0
  | .cons _ v fs => 2 + fuelV v + fuelO fs
end

/-- The text that follows the first element of a rendered array: for
each further element a comma and its rendering, then the closing
bracket and the continuation. -/
def arrTail : JArr → Str → Str
  | .nil, rest => ']' :: rest
  | .cons y ys, rest => ',' :: render y ++ arrTail ys rest

/-- The text that follows the first member of a rendered object. -/
def objTail : JObj → Str → Str
  | .nil, rest => '\x7d' :: rest
  | .cons k v fs, rest => ',' :: '"' :: k ++ '"' :: ':' :: render v ++ objTail fs rest

/-- A continuation on which number parsing stops: empty, or starting
with a non-digit. -/
def delimOk (rest : Str) : Prop :=
  rest = [] ∨ ∃ c r, rest = c :: r ∧ isDigitChar c = false

/-- No two adjacent whitespace characters (an invariant of
`collapseWs` output, used to prove idempotence of `normWhitespace`). -/
def noWsRun : Str → Bool
  | [] => true
  | [_] => true
  | c1 :: c2 :: r => !(isWsChar c1 && isWsChar c2) && noWsRun (c2 :: r)

/-- The index/group consistency invariant: every variant key stored in
any group resolves in the signature map. -/
def GroupKeysInMap (st : ServerState) : Prop :=
  ∀ gk g, mapGet st.apiGroups gk = some g →
    ∀ v ∈ g.variants, (mapGet st.requestMap v.requestKey).isSome

/-! ## Theorems -/

/-- C1 (counterexample).  In the state loaded from an archive holding
only `GET http://h/users/7`, the request `GET /users/8` misses both
exact-signature lookups and its path is known to no group (`hasPath` is
false), yet `findMatchingEntry` returns the recorded entry — a
regex/fuzzy path match is attempted and succeeds, refuting the claim
that the matcher stops after the two exact-signature lookups. -/
theorem C1_counterexample :
    strategyWithBody stUsers7 ("GET".toList) ("/users/8".toList) [] none = none ∧
    strategyNoBody stUsers7 ("GET".toList) ("/users/8".toList) [] = none ∧
    hasPath stUsers7 ("GET".toList) ("/users/8".toList) = false ∧
    findMatchingEntry stUsers7 ("GET".toList) ("/users/8".toList) [] none
      = some recUsers7 := by
  refine ⟨by decide, by decide, by decide, by decide⟩

/-- Shared helper: the source matcher equals the strategy chain written
with the named strategy definitions. -/
theorem matchChain_eq (st : ServerState) (m p q : Str) (b : Option Str) :
    findMatchingEntry st m p q b = specMatchChain st m p q b := by
  have tail4 :
      (match mapGet st.apiGroups (m ++ ':' :: p) with
        | some group =>
          match group.variants with
          | firstVariant :: _ => mapGet st.requestMap firstVariant.requestKey
          | [] => findPatternOrFuzzy st m p
        | none => findPatternOrFuzzy st m p)
      = (match strategyGroup st m p with
        | some committed => committed
        | none => findPatternOrFuzzy st m p) := by
    unfold strategyGroup
    cases mapGet st.apiGroups (m ++ ':' :: p) with
    | none => rfl
    | some g =>
      obtain ⟨gm, gp, vars⟩ := g
      cases vars with
      | nil => rfl
      | cons v vs => rfl
  have hs1 : (match b with
      | some t =>
        if t ≠ [] then
          mapGet st.requestMap (generateRequestKey m p q (some ⟨some t⟩))
        else none
      | none => none) = strategyWithBody st m p q b := by
    unfold strategyWithBody
    cases b with
    | none => rfl
    | some t =>
      by_cases ht : t = []
      · simp [ht]
      · simp [ht]
  unfold findMatchingEntry specMatchChain
  rw [hs1]
  cases strategyWithBody st m p q b with
  | some e => rfl
  | none =>
    unfold strategyNoBody strategyNoQuery
    cases mapGet st.requestMap (generateRequestKey m p q none) with
    | some e => rfl
    | none =>
      cases mapGet st.requestMap (generateRequestKey m p [] none) with
      | some e => rfl
      | none =>
        rw [tail4]
        unfold findPatternOrFuzzy
        cases strategyGroup st m p with
        | some committed => rfl
        | none => rfl

/-- C1 (amended).  The matcher applies the six-strategy chain actually
present in the source, in order: exact signature with body (only for
present, nonempty body text), exact signature without body, signature
without query, the committing first-variant group fallback, regex path
pattern matching, and case-insensitive fuzzy path comparison; there is
no `hasPath`-decided outcome. -/
theorem C1_amended_chain (st : ServerState) (m p q : Str) (b : Option Str) :
    findMatchingEntry st m p q b = specMatchChain st m p q b :=
  matchChain_eq st m p q b

/-- C2 (counterexample).  For the archive holding only
`GET http://h/p?a=1`, the request `GET /p?a=2` has a registered method
and path but matches no recorded signature; the matcher nevertheless
returns the recorded `a=1` variant through the group fallback, and the
responder replays its recorded JSON body with status 200 — there is no
`PathKnownNoVariant` outcome and no synthetic envelope. -/
theorem C2_counterexample :
    hasPath stQueryA1 ("GET".toList) ("/p".toList) = true ∧
    strategyWithBody stQueryA1 ("GET".toList) ("/p".toList) ("a=2".toList) none = none ∧
    strategyNoBody stQueryA1 ("GET".toList) ("/p".toList) ("a=2".toList) = none ∧
    findMatchingEntry stQueryA1 ("GET".toList) ("/p".toList) ("a=2".toList) none
      = some recQueryA1 ∧
    handleRequest stQueryA1 ("GET".toList) ("/p".toList) ("a=2".toList) none
        (fun _ => true) ("T".toList)
      = .replay (sendMockedResponse recQueryA1 (fun _ => true)) ∧
    resultStatus (handleRequest stQueryA1 ("GET".toList) ("/p".toList) ("a=2".toList)
        none (fun _ => true) ("T".toList)) = 200 ∧
    resultBody (handleRequest stQueryA1 ("GET".toList) ("/p".toList) ("a=2".toList)
        none (fun _ => true) ("T".toList))
      = some (BodyOut.jsonBody (.jobj (.cons ("r".toList) (.jnum 1) .nil))) := by
  refine ⟨by decide, by decide, by decide, by decide, by decide, by decide, by decide⟩

/-- C8 (counterexample).  The path `/users/8` was never recorded under
any method in `stUsers7`, yet the request `GET /users/8` is answered by
a 200 replay of the `/users/7` entry (via pattern matching), not by the
404 responder. -/
theorem C8_counterexample :
    (stUsers7.apiGroups.all (fun pr => pr.2.path ≠ ("/users/8".toList))) = true ∧
    isReplay (handleRequest stUsers7 ("GET".toList) ("/users/8".toList) [] none
      (fun _ => true) ("T".toList)) = true ∧
    resultStatus (handleRequest stUsers7 ("GET".toList) ("/users/8".toList) [] none
      (fun _ => true) ("T".toList)) = 200 := by
  refine ⟨by decide, by decide, by decide⟩

/-- C2 (amended).  When a request's method and path are registered but
the three signature lookups (with body, without body, without query) all
miss, the matcher commits to the group fallback: it returns the map
lookup of the group's first recorded variant — a recorded variant's
entry, which the responder then replays; no `PathKnownNoVariant` outcome
or synthetic success envelope exists in the code. -/
theorem C2_amended_group_fallback (st : ServerState) (m p q : Str) (b : Option Str)
    (g : ApiGroup) (v : Variant) (vs : List Variant)
    (h1 : strategyWithBody st m p q b = none)
    (h2 : strategyNoBody st m p q = none)
    (h3 : strategyNoQuery st m p = none)
    (hg : mapGet st.apiGroups (m ++ ':' :: p) = some g)
    (hv : g.variants = v :: vs) :
    findMatchingEntry st m p q b = mapGet st.requestMap v.requestKey := by
  rw [matchChain_eq]
  unfold specMatchChain strategyGroup
  simp only [h1, h2, h3, hg, hv]

/-- Witness for C2 (amended) at the `a=1`/`a=2` scenario. -/
theorem C2_witness :
    findMatchingEntry stQueryA1 ("GET".toList) ("/p".toList) ("a=2".toList) none
      = mapGet stQueryA1.requestMap ("GET:/p?a=1".toList) :=
  C2_amended_group_fallback stQueryA1 ("GET".toList) ("/p".toList) ("a=2".toList) none
    ⟨"GET".toList, "/p".toList,
      [⟨"a=1".toList, none, respJson ("\x7b\"r\":1\x7d".toList),
        "http://h/p?a=1".toList, "GET:/p?a=1".toList, 0⟩]⟩
    ⟨"a=1".toList, none, respJson ("\x7b\"r\":1\x7d".toList),
      "http://h/p?a=1".toList, "GET:/p?a=1".toList, 0⟩
    [] (by decide) (by decide) (by decide) (by decide) (by decide)

/-- C8 (amended).  When all six matcher strategies miss, the responder
emits the 404 payload: the fixed error text, the requested
method/path/query (empty query reported as null) with the timestamp, and
the diagnostic endpoint list, whose length never exceeds 10. -/
theorem C8_amended_notfound (st : ServerState) (m p q : Str) (b : Option Str)
    (ok : HarHeader → Bool) (now : Str)
    (h : findMatchingEntry st m p q b = none) :
    handleRequest st m p q b ok now = .notFound (handleNotFound st m p q now) ∧
    (handleNotFound st m p q now).status = 404 ∧
    (handleNotFound st m p q now).error
      = ("No matching request found in HAR file".toList) ∧
    (handleNotFound st m p q now).requested
      = ⟨m, p, (if q = [] then none else some q), now⟩ ∧
    (handleNotFound st m p q now).availableEndpoints = getAvailableEndpoints st ∧
    (handleNotFound st m p q now).availableEndpoints.length ≤ 10 := by
  refine ⟨?_, rfl, rfl, rfl, rfl, ?_⟩
  · unfold handleRequest
    rw [h]
  · show (getAvailableEndpoints st).length ≤ 10
    unfold getAvailableEndpoints
    exact List.length_take_le _ _

/-- Witness for C8 (amended) on the empty state. -/
theorem C8_witness :
    handleRequest emptyState ("GET".toList) ("/a".toList) [] none (fun _ => true)
        ("T".toList)
      = .notFound (handleNotFound emptyState ("GET".toList) ("/a".toList) []
          ("T".toList)) :=
  (C8_amended_notfound emptyState ("GET".toList) ("/a".toList) [] none
    (fun _ => true) ("T".toList) (by decide)).1

/-- C3 (counterexample).  Two query strings that differ only in the
order of the repeated values of one parameter name produce different
normalized queries and hence different signatures: the normalizer sorts
parameter names only, and renders a repeated name's values joined by
commas in original order. -/
theorem C3_counterexample :
    sortQueryString ("a=2&a=1".toList) ≠ sortQueryString ("a=1&a=2".toList) ∧
    generateRequestKey ("GET".toList) ("/p".toList) ("a=2&a=1".toList) none
      ≠ generateRequestKey ("GET".toList) ("/p".toList) ("a=1&a=2".toList) none := by
  refine ⟨by decide, by decide⟩

/-- C4 (counterexample).  Two body texts that parse to JSON values equal
up to key reordering (here: a string scalar containing a double space)
get equal `normalizeJson` outputs but different signature body
components: the already-canonical text falls into the
whitespace-collapsing branch of `generateRequestKey` while the reordered
one does not. -/
theorem C4_counterexample :
    parseJson ("\x7b\"a\":\"x  y\",\"b\":2\x7d".toList)
      = some (.jobj (.cons ("a".toList) (.jstr ("x  y".toList))
          (.cons ("b".toList) (.jnum 2) .nil))) ∧
    parseJson ("\x7b\"b\":2,\"a\":\"x  y\"\x7d".toList)
      = some (.jobj (.cons ("b".toList) (.jnum 2)
          (.cons ("a".toList) (.jstr ("x  y".toList)) .nil))) ∧
    keyPermEq
      (.jobj (.cons ("a".toList) (.jstr ("x  y".toList))
        (.cons ("b".toList) (.jnum 2) .nil)))
      (.jobj (.cons ("b".toList) (.jnum 2)
        (.cons ("a".toList) (.jstr ("x  y".toList)) .nil))) = true ∧
    normalizeJson ("\x7b\"a\":\"x  y\",\"b\":2\x7d".toList)
      = normalizeJson ("\x7b\"b\":2,\"a\":\"x  y\"\x7d".toList) ∧
    normBody ("\x7b\"a\":\"x  y\",\"b\":2\x7d".toList)
      ≠ normBody ("\x7b\"b\":2,\"a\":\"x  y\"\x7d".toList) ∧
    generateRequestKey ("POST".toList) ("/p".toList) []
        (some ⟨some ("\x7b\"a\":\"x  y\",\"b\":2\x7d".toList)⟩)
      ≠ generateRequestKey ("POST".toList) ("/p".toList) []
        (some ⟨some ("\x7b\"b\":2,\"a\":\"x  y\"\x7d".toList)⟩) := by
  refine ⟨by decide, by decide, by decide, by decide, by decide, by decide⟩

/-- C5 (counterexample).  The body-normalization step applied during
signature generation is not idempotent: a JSON body whose canonical form
contains a run of spaces inside a string scalar is collapsed further by
a second application. -/
theorem C5_counterexample :
    normBody (normBody ("[\"x  y\"] ".toList)) ≠ normBody ("[\"x  y\"] ".toList) := by
  decide

/-- C6 (counterexample).  Query normalization is not idempotent on
percent-encoded input: `querystring.parse` percent-decodes values, so a
second normalization of the output of the first re-splits on the decoded
`&`. -/
theorem C6_counterexample :
    sortQueryString (sortQueryString ("a=%26b".toList))
      ≠ sortQueryString ("a=%26b".toList) := by
  decide

/-- C7 (counterexample).  Signature round trips fail without a collision
precondition: both `archCollide` entries register the same signature, so
looking up the first entry's rebuilt signature returns the second
entry's record (last write wins), not the first entry. -/
theorem C7_counterexample :
    mapGet stCollide.requestMap collideKey
      = some ⟨⟨"GET".toList, "http://h/p".toList, none⟩,
          ⟨201, [], some ⟨some ("second".toList)⟩⟩, 1, "/p".toList,
          "GET".toList, "http://h/p".toList, []⟩ ∧
    mapGet stCollide.requestMap collideKey
      ≠ some ⟨⟨"GET".toList, "http://h/p".toList, none⟩,
          ⟨200, [], some ⟨some ("first".toList)⟩⟩, 0, "/p".toList,
          "GET".toList, "http://h/p".toList, []⟩ := by
  refine ⟨by decide, by decide⟩

/-- Shared helper: the applied headers of the per-header loop are exactly
the non-denylisted headers whose `res.set` succeeds. -/
theorem applyHeaders_fst (headers : List HarHeader) (ok : HarHeader → Bool) :
    (applyHeaders headers ok).1
      = headers.filter (fun h => decide (strLower h.name ∉ skipHeaders) && ok h) := by
  induction headers with
  | nil => rfl
  | cons h t ih =>
    by_cases hs : strLower h.name ∈ skipHeaders
    · simp [applyHeaders, hs, ih, List.filter_cons]
    · by_cases hok : ok h
      · simp [applyHeaders, hs, hok, ih, List.filter_cons]
      · simp [applyHeaders, hs, hok, ih, List.filter_cons]

/-- Shared helper: the warnings of the per-header loop are exactly the
names of the non-denylisted headers whose `res.set` fails. -/
theorem applyHeaders_snd (headers : List HarHeader) (ok : HarHeader → Bool) :
    (applyHeaders headers ok).2
      = (headers.filter
          (fun h => decide (strLower h.name ∉ skipHeaders) && !ok h)).map
            HarHeader.name := by
  induction headers with
  | nil => rfl
  | cons h t ih =>
    by_cases hs : strLower h.name ∈ skipHeaders
    · simp [applyHeaders, hs, ih, List.filter_cons]
    · by_cases hok : ok h
      · simp [applyHeaders, hs, hok, ih, List.filter_cons]
      · simp [applyHeaders, hs, hok, ih, List.filter_cons]

/-- C9.  Replaying a matched entry filters headers through the fixed
denylist: a recorded header whose lowercased name is denylisted is never
set; every header outside the denylist is attempted, ends up applied
exactly when its own `res.set` succeeds and in the warnings otherwise, so
one header's failure neither aborts the response nor prevents any other
header from being attempted. -/
theorem C9_header_filtering (e : MapRecord) (ok : HarHeader → Bool) :
    (sendMockedResponse e ok).headersSet
      = e.response.headers.filter
          (fun h => decide (strLower h.name ∉ skipHeaders) && ok h) ∧
    (sendMockedResponse e ok).headerWarnings
      = (e.response.headers.filter
          (fun h => decide (strLower h.name ∉ skipHeaders) && !ok h)).map
            HarHeader.name ∧
    (∀ h ∈ (sendMockedResponse e ok).headersSet, strLower h.name ∉ skipHeaders) ∧
    (∀ h ∈ e.response.headers, strLower h.name ∉ skipHeaders → ok h = true →
      h ∈ (sendMockedResponse e ok).headersSet) := by
  have hset : (sendMockedResponse e ok).headersSet = (applyHeaders e.response.headers ok).1 := rfl
  have hwarn : (sendMockedResponse e ok).headerWarnings = (applyHeaders e.response.headers ok).2 := rfl
  refine ⟨hset.trans (applyHeaders_fst _ _), hwarn.trans (applyHeaders_snd _ _), ?_, ?_⟩
  · intro h hmem
    rw [hset, applyHeaders_fst] at hmem
    have := List.of_mem_filter hmem
    simp only [Bool.and_eq_true, decide_eq_true_eq] at this
    exact this.1
  · intro h hmem hskip hok
    rw [hset, applyHeaders_fst]
    refine List.mem_filter.2 ⟨hmem, ?_⟩
    simp [hskip, hok]

/-- Witness for C9: with a denylisted `Origin` header, a failing `X-Bad`
header and a trailing `X-Trace` header, the trailing header is still
applied. -/
theorem C9_witness :
    (⟨"X-Trace".toList, "2".toList⟩ : HarHeader)
      ∈ (sendMockedResponse recHeaders okSkipBad).headersSet :=
  (C9_header_filtering recHeaders okSkipBad).2.2.2
    ⟨"X-Trace".toList, "2".toList⟩ (by decide) (by decide) (by decide)

/-- Shared helper: lookup after `mapSet`. -/
theorem mapGet_set {β : Type} (m : List (Str × β)) (k k' : Str) (v : β) :
    mapGet (mapSet m k v) k' = if k' = k then some v else mapGet m k' := by
  induction m with
  | nil =>
    by_cases h : k' = k
    · subst h; simp [mapSet, mapGet, List.find?]
    · simp [mapSet, mapGet, List.find?, h, Ne.symm h]
  | cons p rest ih =>
    obtain ⟨k0, v0⟩ := p
    by_cases h0 : k0 = k
    · subst h0
      by_cases h : k' = k0
      · subst h; simp [mapSet, mapGet, List.find?]
      · simp [mapSet, mapGet, List.find?, h, Ne.symm h]
    · by_cases h : k' = k0
      · have hne : ¬ k' = k := by rw [h]; exact h0
        simp [mapSet, mapGet, List.find?, h0, hne, h.symm]
      · have l0 : mapSet ((k0, v0) :: rest) k v = (k0, v0) :: mapSet rest k v := by
          simp [mapSet, h0]
        have l1 : mapGet ((k0, v0) :: mapSet rest k v) k'
            = mapGet (mapSet rest k v) k' := by
          simp [mapGet, List.find?, Ne.symm h]
        have l2 : mapGet ((k0, v0) :: rest) k' = mapGet rest k' := by
          simp [mapGet, List.find?, Ne.symm h]
        rw [l0, l1, ih, l2]

/-- Shared helper: `mapSet` never removes a key. -/
theorem mapGet_set_isSome {β : Type} (m : List (Str × β)) (k k' : Str) (v : β)
    (h : (mapGet m k').isSome) : (mapGet (mapSet m k v) k').isSome := by
  rw [mapGet_set]
  by_cases he : k' = k
  · simp [he]
  · simpa [he] using h

/-- Shared helper: registering a record preserves the invariant (the
signature map only grows). -/
theorem registerRecord_inv (st : ServerState) (key : Str) (record : MapRecord)
    (h : GroupKeysInMap st) : GroupKeysInMap (registerRecord st key record) := by
  intro gk g hget v hv
  exact mapGet_set_isSome _ _ _ _ (h gk g hget v hv)

/-- Shared helper: `ensureGroup` leaves the signature map unchanged. -/
theorem ensureGroup_requestMap (st : ServerState) (apiKey method path : Str) :
    (ensureGroup st apiKey method path).requestMap = st.requestMap := by
  unfold ensureGroup
  by_cases hh : mapHas st.apiGroups apiKey
  · rw [if_pos hh]
  · rw [if_neg hh]

/-- Shared helper: `pushVariant` leaves the signature map unchanged. -/
theorem pushVariant_requestMap (st : ServerState) (apiKey : Str) (variant : Variant) :
    (pushVariant st apiKey variant).requestMap = st.requestMap := by
  unfold pushVariant
  cases mapGet st.apiGroups apiKey <;> rfl

/-- Shared helper: creating an empty group preserves the invariant. -/
theorem ensureGroup_inv (st : ServerState) (apiKey method path : Str)
    (h : GroupKeysInMap st) : GroupKeysInMap (ensureGroup st apiKey method path) := by
  intro gk g hget v hv
  rw [ensureGroup_requestMap]
  unfold ensureGroup at hget
  by_cases hh : mapHas st.apiGroups apiKey
  · rw [if_pos hh] at hget
    exact h gk g hget v hv
  · rw [if_neg hh] at hget
    simp only at hget
    rw [mapGet_set] at hget
    by_cases hk : gk = apiKey
    · rw [if_pos hk] at hget
      cases hget
      simp at hv
    · rw [if_neg hk] at hget
      exact h gk g hget v hv

/-- Shared helper: appending a variant whose key resolves preserves the
invariant. -/
theorem pushVariant_inv (st : ServerState) (apiKey : Str) (variant : Variant)
    (h : GroupKeysInMap st)
    (hres : (mapGet st.requestMap variant.requestKey).isSome) :
    GroupKeysInMap (pushVariant st apiKey variant) := by
  intro gk g hget v hv
  rw [pushVariant_requestMap]
  unfold pushVariant at hget
  cases hg0 : mapGet st.apiGroups apiKey with
  | none =>
    rw [hg0] at hget
    exact h gk g hget v hv
  | some g0 =>
    rw [hg0] at hget
    simp only at hget
    rw [mapGet_set] at hget
    by_cases hk : gk = apiKey
    · rw [if_pos hk] at hget
      cases hget
      simp only [List.mem_append, List.mem_singleton] at hv
      cases hv with
      | inl hold => exact h apiKey g0 hg0 v hold
      | inr hnew => rw [hnew]; exact hres
    · rw [if_neg hk] at hget
      exact h gk g hget v hv

/-- Shared helper: one load step preserves the invariant. -/
theorem processEntry_inv (st : ServerState) (i : Nat) (e : HarEntry)
    (h : GroupKeysInMap st) : GroupKeysInMap (processEntry st i e) := by
  unfold processEntry
  cases hurl : parseURL e.request.url with
  | none => exact h
  | some pq =>
    obtain ⟨bp, qp⟩ := pq
    refine pushVariant_inv _ _ _
      (ensureGroup_inv _ _ _ _ (registerRecord_inv _ _ _ h)) ?_
    rw [ensureGroup_requestMap]
    unfold registerRecord
    simp only
    rw [mapGet_set, if_pos rfl]
    rfl

/-- Shared helper: the invariant holds after processing any entry list. -/
theorem processFrom_inv (es : List HarEntry) : ∀ (idx : Nat) (st : ServerState),
    GroupKeysInMap st → GroupKeysInMap (processFrom idx st es) := by
  induction es with
  | nil => intro idx st h; exact h
  | cons e es ih =>
    intro idx st h
    exact ih (idx + 1) (processEntry st idx e) (processEntry_inv st idx e h)

/-- C10.  After archive load completes, every variant recorded in any
group stores a `requestKey` that is present in the signature map, so the
group-based fallback of strategy 4 always finds an entry even when later
entries overwrote colliding signatures. -/
theorem C10_group_keys_in_map (entries : List HarEntry) (gk : Str) (g : ApiGroup)
    (hget : mapGet (processHAREntries entries).apiGroups gk = some g)
    (v : Variant) (hv : v ∈ g.variants) :
    (mapGet (processHAREntries entries).requestMap v.requestKey).isSome := by
  have base : GroupKeysInMap emptyState := by
    intro gk g hget v hv
    simp [emptyState, mapGet, List.find?] at hget
  exact processFrom_inv entries 0 emptyState base gk g hget v hv

/-- Witness for C10 at the single-entry archive `archQueryA1`. -/
theorem C10_witness :
    (mapGet (processHAREntries archQueryA1).requestMap ("GET:/p?a=1".toList)).isSome :=
  C10_group_keys_in_map archQueryA1 ("GET:/p".toList)
    ⟨"GET".toList, "/p".toList,
      [⟨"a=1".toList, none, respJson ("\x7b\"r\":1\x7d".toList),
        "http://h/p?a=1".toList, "GET:/p?a=1".toList, 0⟩]⟩
    (by decide)
    ⟨"a=1".toList, none, respJson ("\x7b\"r\":1\x7d".toList),
      "http://h/p?a=1".toList, "GET:/p?a=1".toList, 0⟩
    (by decide)

/-- Shared helper: a stored record survives processing of entries none
of which regenerates its key. -/
theorem processFrom_preserve (es : List HarEntry) : ∀ (idx : Nat) (st : ServerState)
    (k : Str) (r : MapRecord),
    mapGet st.requestMap k = some r →
    (∀ j e bp qp, es.get? j = some e → parseURL e.request.url = some (bp, qp) →
      generateRequestKey e.request.method bp qp e.request.postData ≠ k) →
    mapGet (processFrom idx st es).requestMap k = some r := by
  induction es with
  | nil => intro idx st k r h _; exact h
  | cons e es ih =>
    intro idx st k r h hnone
    unfold processFrom
    apply ih
    · unfold processEntry
      cases hurl : parseURL e.request.url with
      | none => exact h
      | some pq =>
        obtain ⟨bp, qp⟩ := pq
        rw [pushVariant_requestMap, ensureGroup_requestMap]
        unfold registerRecord
        simp only
        rw [mapGet_set,
          if_neg (fun he => hnone 0 e bp qp rfl hurl he.symm)]
        exact h
    · intro j e' bp' qp' hj hp
      exact hnone (j + 1) e' bp' qp' (by simpa using hj) hp

/-- Shared helper: the record registered for entry `i` is found under its
rebuilt key when no later entry collides with it. -/
theorem processFrom_found (es : List HarEntry) : ∀ (idx : Nat) (st : ServerState)
    (i : Nat) (e : HarEntry) (bp qp : Str),
    es.get? i = some e →
    parseURL e.request.url = some (bp, qp) →
    (∀ j e' bp' qp', i < j → es.get? j = some e' →
      parseURL e'.request.url = some (bp', qp') →
      generateRequestKey e'.request.method bp' qp' e'.request.postData
        ≠ generateRequestKey e.request.method bp qp e.request.postData) →
    mapGet (processFrom idx st es).requestMap
        (generateRequestKey e.request.method bp qp e.request.postData)
      = some ⟨e.request, e.response, idx + i, bp, e.request.method,
          e.request.url, qp⟩ := by
  induction es with
  | nil => intro idx st i e bp qp hi; simp at hi
  | cons e0 es ih =>
    intro idx st i e bp qp hi hurl hlater
    cases i with
    | zero =>
      have he : e0 = e := by simpa using hi
      subst he
      unfold processFrom
      apply processFrom_preserve
      · unfold processEntry
        rw [hurl]
        simp only
        rw [pushVariant_requestMap, ensureGroup_requestMap]
        unfold registerRecord
        simp only
        rw [mapGet_set, if_pos rfl]
        simp
      · intro j e' bp' qp' hj hp
        exact hlater (j + 1) e' bp' qp' (Nat.succ_pos j) (by simpa using hj) hp
    | succ i' =>
      unfold processFrom
      have hmain := ih (idx + 1) (processEntry st idx e0) i' e bp qp
        (by simpa using hi) hurl
        (fun j e' bp' qp' hj hget hp =>
          hlater (j + 1) e' bp' qp' (Nat.succ_lt_succ hj) (by simpa using hget) hp)
      rw [hmain]
      have : idx + 1 + i' = idx + (i' + 1) := by omega
      rw [this]

/-- C7 (amended).  An archive entry whose URL parses is found under the
signature rebuilt from its method, path, normalized query and body —
provided no later entry with a parseable URL produces the same
signature; with a collision, the later registration wins. -/
theorem C7_amended_roundtrip (entries : List HarEntry) (i : Nat) (e : HarEntry)
    (bp qp : Str)
    (hi : entries.get? i = some e)
    (hurl : parseURL e.request.url = some (bp, qp))
    (hlater : ∀ j e' bp' qp', i < j → entries.get? j = some e' →
      parseURL e'.request.url = some (bp', qp') →
      generateRequestKey e'.request.method bp' qp' e'.request.postData
        ≠ generateRequestKey e.request.method bp qp e.request.postData) :
    mapGet (processHAREntries entries).requestMap
        (generateRequestKey e.request.method bp qp e.request.postData)
      = some ⟨e.request, e.response, i, bp, e.request.method,
          e.request.url, qp⟩ := by
  have hmain := processFrom_found entries 0 emptyState i e bp qp hi hurl hlater
  simpa using hmain

/-- Witness for C7 (amended) at the collision-free single-entry archive. -/
theorem C7_witness :
    mapGet (processHAREntries archQueryA1).requestMap
        (generateRequestKey ("GET".toList) ("/p".toList) ("a=1".toList) none)
      = some recQueryA1 := by
  have hmain := C7_amended_roundtrip archQueryA1 0
    ⟨⟨"GET".toList, "http://h/p?a=1".toList, none⟩,
      respJson ("\x7b\"r\":1\x7d".toList)⟩
    ("/p".toList) ("a=1".toList) rfl (by decide)
    (fun j e' bp' qp' hj hget hp => by
      have hnone : archQueryA1.get? j = none :=
        List.get?_eq_none.2 (by simpa using hj)
      rw [hnone] at hget
      cases hget)
  exact hmain

/-- Shared helper: keys after `qsInsert` — unchanged when the name is
already present, appended otherwise. -/
theorem qsInsert_keys (k : Str) (v : Str) (ps : List (Str × List Str)) :
    (qsInsert k v ps).map Prod.fst
      = if k ∈ ps.map Prod.fst then ps.map Prod.fst
        else ps.map Prod.fst ++ [k] := by
  induction ps with
  | nil => simp [qsInsert]
  | cons p rest ih =>
    obtain ⟨k', vs⟩ := p
    by_cases hk : k = k'
    · subst hk
      simp [qsInsert]
    · simp only [qsInsert, if_neg hk, List.map_cons]
      rw [ih]
      by_cases hmem : k ∈ rest.map Prod.fst
      · simp [hmem, Ne.symm hk, hk]
      · simp [hmem, Ne.symm hk, hk]

/-- Shared helper: `qsInsert` preserves key uniqueness. -/
theorem qsInsert_nodupKeys (k : Str) (v : Str) (ps : List (Str × List Str))
    (h : (ps.map Prod.fst).Nodup) : ((qsInsert k v ps).map Prod.fst).Nodup := by
  rw [qsInsert_keys]
  by_cases hmem : k ∈ ps.map Prod.fst
  · simpa [hmem] using h
  · rw [if_neg hmem]
    rw [← List.concat_eq_append]
    exact h.concat hmem

/-- Shared helper: the grouping fold preserves key uniqueness. -/
theorem qsFold_nodupKeys (segs : List Str) : ∀ (acc : List (Str × List Str)),
    (acc.map Prod.fst).Nodup →
    ((segs.foldl (fun acc seg =>
        let p := qsPairOfSegment seg
        qsInsert p.1 p.2 acc) acc).map Prod.fst).Nodup := by
  induction segs with
  | nil => intro acc h; exact h
  | cons seg segs ih =>
    intro acc h
    exact ih _ (qsInsert_nodupKeys _ _ _ h)

/-- Shared helper: parsed query tables have unique names. -/
theorem qsParse_nodupKeys (q : Str) : ((qsParse q).map Prod.fst).Nodup :=
  qsFold_nodupKeys _ [] (by simp)

/-- Shared helper: two sorted association lists with unique keys that
are permutations of each other are equal. -/
theorem sortedPerm_eq {β : Type} : ∀ (l1 l2 : List (Str × β)),
    l1.Perm l2 →
    l1.Sorted (fun a b => a.1 ≤ b.1) →
    l2.Sorted (fun a b => a.1 ≤ b.1) →
    (l1.map Prod.fst).Nodup → l1 = l2 := by
  intro l1
  induction l1 with
  | nil =>
    intro l2 h _ _ _
    exact h.nil_eq
  | cons a t1 ih =>
    intro l2 h hs1 hs2 hnd
    cases l2 with
    | nil => exact absurd h.symm.nil_eq (by simp)
    | cons b t2 =>
      have hamem : a ∈ b :: t2 := h.subset (List.mem_cons_self a t1)
      have hbmem : b ∈ a :: t1 := h.symm.subset (List.mem_cons_self b t2)
      have hrel1 : ∀ x ∈ t1, a.1 ≤ x.1 := by
        intro x hx
        exact (List.pairwise_cons.1 hs1).1 x hx
      have hrel2 : ∀ x ∈ t2, b.1 ≤ x.1 := by
        intro x hx
        exact (List.pairwise_cons.1 hs2).1 x hx
      have hba : b.1 ≤ a.1 := by
        cases List.mem_cons.1 hamem with
        | inl he => rw [he]
        | inr ht => exact hrel2 a ht
      have hab : a.1 ≤ b.1 := by
        cases List.mem_cons.1 hbmem with
        | inl he => rw [he]
        | inr ht => exact hrel1 b ht
      have hkey : a.1 = b.1 := le_antisymm hab hba
      have hnd' : (a.1 :: t1.map Prod.fst).Nodup := by
        rw [List.map_cons] at hnd
        exact hnd
      have hb : b = a := by
        cases List.mem_cons.1 hbmem with
        | inl he => exact he
        | inr ht =>
          exfalso
          have h1 : b.1 ∈ t1.map Prod.fst := List.mem_map_of_mem Prod.fst ht
          have h2 : a.1 ∉ t1.map Prod.fst := (List.nodup_cons.1 hnd').1
          rw [← hkey] at h1
          exact h2 h1
      subst hb
      have htail : t1.Perm t2 := h.cons_inv
      have := ih t2 htail (List.pairwise_cons.1 hs1).2 (List.pairwise_cons.1 hs2).2
        (List.nodup_cons.1 hnd').2
      rw [this]

/-- Shared helper: `sortQueryString` always equals the rendering of the
sorted parse (also for the empty query, where both sides are empty). -/
theorem sortQueryString_eq_render (q : Str) :
    sortQueryString q
      = joinWithChar '&' ((sortPairsByName (qsParse q)).map renderQSPair) := by
  unfold sortQueryString
  by_cases h : q = []
  · subst h
    decide
  · rw [if_neg h]

/-- C3 (amended).  Query normalization is a function of the parsed
name-to-values table up to reordering of names: two query strings whose
parses are permutations of each other produce the same normalized query,
and (for nonempty queries) the same signatures for every method, path
and body.  Reordering the values of one repeated name, by contrast, does
change the signature (see the counterexample). -/
theorem C3_amended_name_order (q1 q2 : Str)
    (h : (qsParse q1).Perm (qsParse q2)) :
    sortQueryString q1 = sortQueryString q2 ∧
    (q1 ≠ [] → q2 ≠ [] → ∀ (m p : Str) (pd : Option PostData),
      generateRequestKey m p q1 pd = generateRequestKey m p q2 pd) := by
  haveI instTot : IsTotal (Str × List Str) (fun a b => a.1 ≤ b.1) :=
    ⟨fun a b => le_total a.1 b.1⟩
  haveI instTrans : IsTrans (Str × List Str) (fun a b => a.1 ≤ b.1) :=
    ⟨fun _ _ _ hab hbc => le_trans hab hbc⟩
  have hperm : (sortPairsByName (qsParse q1)).Perm (sortPairsByName (qsParse q2)) :=
    ((List.perm_insertionSort _ _).trans h).trans (List.perm_insertionSort _ _).symm
  have hs1 : (sortPairsByName (qsParse q1)).Sorted (fun a b => a.1 ≤ b.1) :=
    List.sorted_insertionSort _ _
  have hs2 : (sortPairsByName (qsParse q2)).Sorted (fun a b => a.1 ≤ b.1) :=
    List.sorted_insertionSort _ _
  have hnd : ((sortPairsByName (qsParse q1)).map Prod.fst).Nodup :=
    ((List.perm_insertionSort _ _).map Prod.fst).nodup_iff.2 (qsParse_nodupKeys q1)
  have heq : sortPairsByName (qsParse q1) = sortPairsByName (qsParse q2) :=
    sortedPerm_eq _ _ hperm hs1 hs2 hnd
  have hsq : sortQueryString q1 = sortQueryString q2 := by
    rw [sortQueryString_eq_render, sortQueryString_eq_render, heq]
  refine ⟨hsq, ?_⟩
  intro h1 h2 m p pd
  simp [generateRequestKey, h1, h2, hsq]

/-- Witness for C3 (amended): reordering whole parameters (distinct
names) leaves the signature unchanged. -/
theorem C3_witness :
    sortQueryString ("b=2&a=1".toList) = sortQueryString ("a=1&b=2".toList) ∧
    generateRequestKey ("GET".toList) ("/u".toList) ("b=2&a=1".toList) none
      = generateRequestKey ("GET".toList) ("/u".toList) ("a=1&b=2".toList) none := by
  have hmain := C3_amended_name_order ("b=2&a=1".toList) ("a=1&b=2".toList) (by decide)
  exact ⟨hmain.1, hmain.2 (by decide) (by decide) ("GET".toList) ("/u".toList) none⟩

/-- Shared helper: a separator never occurs inside a split segment. -/
theorem splitOnChar_not_mem (sep : Char) : ∀ (s : Str) (seg : Str),
    seg ∈ splitOnChar sep s → sep ∉ seg := by
  intro s
  induction s with
  | nil =>
    intro seg hseg
    simp [splitOnChar] at hseg
    simp [hseg]
  | cons c rest ih =>
    intro seg hseg
    by_cases hc : c = sep
    · rw [splitOnChar, if_pos hc] at hseg
      cases List.mem_cons.1 hseg with
      | inl he => simp [he]
      | inr ht => exact ih seg ht
    · rw [splitOnChar, if_neg hc] at hseg
      cases hsp : splitOnChar sep rest with
      | nil => rw [hsp] at hseg; simp at hseg; simp [hseg, Ne.symm hc]
      | cons s0 segs =>
        rw [hsp] at hseg
        cases List.mem_cons.1 hseg with
        | inl he =>
          subst he
          intro hmem
          cases List.mem_cons.1 hmem with
          | inl habs => exact hc habs.symm
          | inr hs0 => exact ih s0 (by rw [hsp]; exact List.mem_cons_self _ _) hs0
        | inr ht => exact ih seg (by rw [hsp]; exact List.mem_cons_of_mem _ ht)

/-- Shared helper: split segments only contain characters of the input. -/
theorem splitOnChar_subset (sep : Char) : ∀ (s : Str) (seg : Str) (c : Char),
    seg ∈ splitOnChar sep s → c ∈ seg → c ∈ s := by
  intro s
  induction s with
  | nil =>
    intro seg c hseg hc
    simp [splitOnChar] at hseg
    subst hseg
    simp at hc
  | cons c0 rest ih =>
    intro seg c hseg hc
    by_cases h0 : c0 = sep
    · rw [splitOnChar, if_pos h0] at hseg
      cases List.mem_cons.1 hseg with
      | inl he => subst he; simp at hc
      | inr ht => exact List.mem_cons_of_mem _ (ih seg c ht hc)
    · rw [splitOnChar, if_neg h0] at hseg
      cases hsp : splitOnChar sep rest with
      | nil =>
        rw [hsp] at hseg; simp at hseg; subst hseg
        exact List.mem_cons.2 (Or.inl (by simpa using hc))
      | cons s0 segs =>
        rw [hsp] at hseg
        cases List.mem_cons.1 hseg with
        | inl he =>
          subst he
          cases List.mem_cons.1 hc with
          | inl he2 => simp [he2]
          | inr ht2 =>
            exact List.mem_cons_of_mem _
              (ih s0 c (by rw [hsp]; exact List.mem_cons_self _ _) ht2)
        | inr ht =>
          exact List.mem_cons_of_mem _
            (ih seg c (by rw [hsp]; exact List.mem_cons_of_mem _ ht) hc)

/-- Shared helper: splitting a separator-free string is trivial. -/
theorem splitOnChar_of_not_mem (sep : Char) : ∀ (s : Str), sep ∉ s →
    splitOnChar sep s = [s] := by
  intro s
  induction s with
  | nil => intro _; rfl
  | cons c rest ih =>
    intro h
    have hc : ¬ c = sep := fun he => h (he ▸ List.mem_cons_self c rest)
    rw [splitOnChar, if_neg hc, ih (fun hm => h (List.mem_cons_of_mem _ hm))]

/-- Shared helper: splitting after a leading separator-free chunk. -/
theorem splitOnChar_append (sep : Char) : ∀ (s t : Str), sep ∉ s →
    splitOnChar sep (s ++ sep :: t) = s :: splitOnChar sep t := by
  intro s
  induction s with
  | nil =>
    intro t _
    simp [splitOnChar]
  | cons c rest ih =>
    intro t h
    have hc : ¬ c = sep := fun he => h (he ▸ List.mem_cons_self c rest)
    have := ih t (fun hm => h (List.mem_cons_of_mem _ hm))
    rw [List.cons_append, splitOnChar, if_neg hc, this]

/-- Shared helper: splitting inverts joining for separator-free nonempty
segment lists. -/
theorem splitOnChar_join (sep : Char) : ∀ (segs : List Str),
    (∀ s ∈ segs, sep ∉ s) → segs ≠ [] →
    splitOnChar sep (joinWithChar sep segs) = segs := by
  intro segs
  induction segs with
  | nil => intro _ hne; exact absurd rfl hne
  | cons s0 rest ih =>
    intro hall _
    cases rest with
    | nil =>
      rw [joinWithChar]
      exact splitOnChar_of_not_mem sep s0 (hall s0 (List.mem_cons_self _ _))
    | cons s1 rest' =>
      have hih : splitOnChar sep (joinWithChar sep (s1 :: rest')) = s1 :: rest' :=
        ih (fun s hs => hall s (List.mem_cons_of_mem _ hs))
          (fun habs => List.noConfusion habs)
      show splitOnChar sep (s0 ++ sep :: joinWithChar sep (s1 :: rest')) = s0 :: s1 :: rest'
      rw [splitOnChar_append sep s0 _ (hall s0 (List.mem_cons_self _ _)), hih]

/-- Shared helper: without percent escapes, decoding only turns `+` into
a space; every output character is a space or an input character. -/
theorem decodeQS_char : ∀ (s : Str), '%' ∉ s → ∀ c ∈ decodeQS s, c = ' ' ∨ c ∈ s := by
  intro s
  induction s with
  | nil => intro _ c hc; simp [decodeQS] at hc
  | cons c0 rest ih =>
    intro hp c hc
    have hp' : '%' ∉ rest := fun hm => hp (List.mem_cons_of_mem _ hm)
    have h0 : ¬ c0 = '%' := fun he => hp (he ▸ List.mem_cons_self c0 rest)
    by_cases hplus : c0 = '+'
    · subst hplus
      rw [show decodeQS ('+' :: rest) = ' ' :: decodeQS rest from rfl] at hc
      cases List.mem_cons.1 hc with
      | inl he => exact Or.inl he
      | inr ht =>
        cases ih hp' c ht with
        | inl he => exact Or.inl he
        | inr hm => exact Or.inr (List.mem_cons_of_mem _ hm)
    · have hstep : decodeQS (c0 :: rest) = c0 :: decodeQS rest := by
        cases rest with
        | nil => cases c0 <;> simp [decodeQS, hplus, h0]
        | cons c1 rest' =>
          cases rest' with
          | nil => simp [decodeQS, hplus, h0]
          | cons c2 rest'' => simp [decodeQS, hplus, h0]
      rw [hstep] at hc
      cases List.mem_cons.1 hc with
      | inl he => exact Or.inr (he ▸ List.mem_cons_self c0 rest)
      | inr ht =>
        cases ih hp' c ht with
        | inl he => exact Or.inl he
        | inr hm => exact Or.inr (List.mem_cons_of_mem _ hm)

/-- Shared helper: decoding is the identity on strings without `%` and
`+`. -/
theorem decodeQS_id : ∀ (s : Str), '%' ∉ s → '+' ∉ s → decodeQS s = s := by
  intro s
  induction s with
  | nil => intro _ _; rfl
  | cons c0 rest ih =>
    intro hp hplus
    have h0 : ¬ c0 = '%' := fun he => hp (he ▸ List.mem_cons_self c0 rest)
    have h1 : ¬ c0 = '+' := fun he => hplus (he ▸ List.mem_cons_self c0 rest)
    have hrest := ih (fun hm => hp (List.mem_cons_of_mem _ hm))
      (fun hm => hplus (List.mem_cons_of_mem _ hm))
    have hstep : decodeQS (c0 :: rest) = c0 :: decodeQS rest := by
      cases rest with
      | nil => cases c0 <;> simp [decodeQS, h0, h1]
      | cons c1 rest' =>
        cases rest' with
        | nil => simp [decodeQS, h0, h1]
        | cons c2 rest'' => simp [decodeQS, h0, h1]
    rw [hstep, hrest]

/-- Shared helper: `takeWhile` over a satisfying chunk stops exactly at
the first failing character. -/
theorem takeWhile_app (p : Char → Bool) : ∀ (k : Str) (x : Char) (t : Str),
    (∀ c ∈ k, p c = true) → p x = false →
    (k ++ x :: t).takeWhile p = k := by
  intro k
  induction k with
  | nil => intro x t _ hx; simp [List.takeWhile, hx]
  | cons c rest ih =>
    intro x t hall hx
    have hc : p c = true := hall c (List.mem_cons_self _ _)
    simp only [List.cons_append, List.takeWhile, hc]
    exact congrArg (List.cons c) (ih x t (fun c' hc' => hall c' (List.mem_cons_of_mem _ hc')) hx)

/-- Shared helper: `dropWhile` counterpart of `takeWhile_app`. -/
theorem dropWhile_app (p : Char → Bool) : ∀ (k : Str) (x : Char) (t : Str),
    (∀ c ∈ k, p c = true) → p x = false →
    (k ++ x :: t).dropWhile p = x :: t := by
  intro k
  induction k with
  | nil => intro x t _ hx; simp [List.dropWhile, hx]
  | cons c rest ih =>
    intro x t hall hx
    have hc : p c = true := hall c (List.mem_cons_self _ _)
    simp only [List.cons_append, List.dropWhile, hc]
    exact ih x t (fun c' hc' => hall c' (List.mem_cons_of_mem _ hc')) hx

/-- Shared helper: inserting a fresh name appends the pair. -/
theorem qsInsert_not_mem (k : Str) (v : Str) : ∀ (acc : List (Str × List Str)),
    k ∉ acc.map Prod.fst → qsInsert k v acc = acc ++ [(k, [v])] := by
  intro acc
  induction acc with
  | nil => intro _; rfl
  | cons p rest ih =>
    intro h
    obtain ⟨k', vs⟩ := p
    have hk : ¬ k = k' := by
      intro he
      exact h (by simp [he])
    rw [qsInsert, if_neg hk, ih (fun hm => h (List.mem_cons_of_mem _ hm))]
    rfl

/-- Shared helper: folding pairwise-distinct name/value pairs builds the
table by simple appending. -/
theorem qsFold_distinct : ∀ (ps : List (Str × Str)) (acc : List (Str × List Str)),
    (ps.map Prod.fst).Nodup →
    (∀ k ∈ ps.map Prod.fst, k ∉ acc.map Prod.fst) →
    ps.foldl (fun acc p => qsInsert p.1 p.2 acc) acc
      = acc ++ ps.map (fun p => (p.1, [p.2])) := by
  intro ps
  induction ps with
  | nil => intro acc _ _; simp
  | cons p rest ih =>
    intro acc hnd hdis
    obtain ⟨k, v⟩ := p
    rw [List.foldl_cons]
    have hstep : qsInsert k v acc = acc ++ [(k, [v])] :=
      qsInsert_not_mem k v acc (hdis k (by simp))
    rw [hstep, ih (acc ++ [(k, [v])]) (by simpa using (List.nodup_cons.1 (by simpa using hnd)).2) ?dis]
    · simp
    case dis =>
      intro k' hk'
      rw [List.map_append]
      intro hmem
      cases List.mem_append.1 hmem with
      | inl hacc => exact hdis k' (List.mem_cons_of_mem _ hk') hacc
      | inr hnew =>
        simp at hnew
        have : k ∉ rest.map Prod.fst := (List.nodup_cons.1 (by simpa using hnd)).1
        exact this (hnew ▸ hk')

/-- Shared helper: decoding percent-free input never outputs `+`. -/
theorem decodeQS_no_plus : ∀ (s : Str), '%' ∉ s → '+' ∉ decodeQS s := by
  intro s
  induction s with
  | nil => intro _; simp [decodeQS]
  | cons c0 rest ih =>
    intro hp
    have hp' : '%' ∉ rest := fun hm => hp (List.mem_cons_of_mem _ hm)
    have h0 : ¬ c0 = '%' := fun he => hp (he ▸ List.mem_cons_self c0 rest)
    by_cases hplus : c0 = '+'
    · subst hplus
      rw [show decodeQS ('+' :: rest) = ' ' :: decodeQS rest from rfl]
      intro hmem
      cases List.mem_cons.1 hmem with
      | inl habs => exact absurd habs (by decide)
      | inr ht => exact ih hp' ht
    · have hstep : decodeQS (c0 :: rest) = c0 :: decodeQS rest := by
        cases rest with
        | nil => cases c0 <;> simp [decodeQS, hplus, h0]
        | cons c1 rest' =>
          cases rest' with
          | nil => simp [decodeQS, hplus, h0]
          | cons c2 rest'' => simp [decodeQS, hplus, h0]
      rw [hstep]
      intro hmem
      cases List.mem_cons.1 hmem with
      | inl habs => exact hplus habs.symm
      | inr ht => exact ih hp' ht

/-- Shared helper: characters of a joined list come from the separator
or from a segment. -/
theorem joinWithChar_mem (sep : Char) : ∀ (segs : List Str) (c : Char),
    c ∈ joinWithChar sep segs → c = sep ∨ ∃ s ∈ segs, c ∈ s := by
  intro segs
  induction segs with
  | nil => intro c hc; simp [joinWithChar] at hc
  | cons s0 rest ih =>
    intro c hc
    cases rest with
    | nil =>
      rw [joinWithChar] at hc
      exact Or.inr ⟨s0, List.mem_cons_self _ _, hc⟩
    | cons s1 rest' =>
      have hjoin : joinWithChar sep (s0 :: s1 :: rest')
          = s0 ++ sep :: joinWithChar sep (s1 :: rest') := rfl
      rw [hjoin] at hc
      cases List.mem_append.1 hc with
      | inl hs0 => exact Or.inr ⟨s0, List.mem_cons_self _ _, hs0⟩
      | inr hrest =>
        cases List.mem_cons.1 hrest with
        | inl he => exact Or.inl he
        | inr ht =>
          cases ih c ht with
          | inl he => exact Or.inl he
          | inr hex =>
            obtain ⟨s, hs, hcs⟩ := hex
            exact Or.inr ⟨s, List.mem_cons_of_mem _ hs, hcs⟩

/-- Shared helper: inserting a good name/value pair keeps the table
good. -/
theorem qsInsert_good (k v : Str) : ∀ (acc : List (Str × List Str)),
    (∀ p ∈ acc, GoodPair p) →
    ('&' ∉ k ∧ '=' ∉ k ∧ '%' ∉ k ∧ '+' ∉ k) →
    ('&' ∉ v ∧ '%' ∉ v ∧ '+' ∉ v) →
    ∀ p ∈ qsInsert k v acc, GoodPair p := by
  intro acc
  induction acc with
  | nil =>
    intro _ hk hv p hp
    simp [qsInsert] at hp
    subst hp
    exact ⟨hk.1, hk.2.1, hk.2.2.1, hk.2.2.2, by simp,
      fun v' hv' => by simp at hv'; subst hv'; exact hv⟩
  | cons p0 rest ih =>
    intro hacc hk hv p hp
    obtain ⟨k', vs⟩ := p0
    by_cases hkk : k = k'
    · rw [qsInsert, if_pos hkk] at hp
      cases List.mem_cons.1 hp with
      | inl he =>
        subst he
        have hg := hacc (k', vs) (List.mem_cons_self _ _)
        refine ⟨hg.1, hg.2.1, hg.2.2.1, hg.2.2.2.1, by simp, ?_⟩
        intro v' hv'
        cases List.mem_append.1 hv' with
        | inl hold => exact hg.2.2.2.2.2 v' hold
        | inr hnew => simp at hnew; subst hnew; exact hv
      | inr ht => exact hacc p (List.mem_cons_of_mem _ ht)
    · rw [qsInsert, if_neg hkk] at hp
      cases List.mem_cons.1 hp with
      | inl he => subst he; exact hacc (k', vs) (List.mem_cons_self _ _)
      | inr ht =>
        exact ih (fun p' hp' => hacc p' (List.mem_cons_of_mem _ hp')) hk hv p ht

/-- Shared helper: the name/value pair of a percent-free,
ampersand-free segment is good. -/
theorem pairOfSegment_good (seg : Str) (hamp : '&' ∉ seg) (hpct : '%' ∉ seg) :
    ('&' ∉ (qsPairOfSegment seg).1 ∧ '=' ∉ (qsPairOfSegment seg).1 ∧
      '%' ∉ (qsPairOfSegment seg).1 ∧ '+' ∉ (qsPairOfSegment seg).1) ∧
    ('&' ∉ (qsPairOfSegment seg).2 ∧ '%' ∉ (qsPairOfSegment seg).2 ∧
      '+' ∉ (qsPairOfSegment seg).2) := by
  have hraw_sub : ∀ c ∈ seg.takeWhile (fun c => c ≠ '='), c ∈ seg :=
    fun c hc => (List.takeWhile_sublist _).mem hc
  have hraw_eq : '=' ∉ seg.takeWhile (fun c => c ≠ '=') := by
    intro hmem
    have := List.mem_takeWhile_imp hmem
    simp at this
  have hraw_pct : '%' ∉ seg.takeWhile (fun c => c ≠ '=') :=
    fun hm => hpct (hraw_sub _ hm)
  have hname : ∀ c ∈ decodeQS (seg.takeWhile (fun c => c ≠ '=')),
      c = ' ' ∨ c ∈ seg.takeWhile (fun c => c ≠ '=') :=
    decodeQS_char _ hraw_pct
  have hname_amp : '&' ∉ decodeQS (seg.takeWhile (fun c => c ≠ '=')) := by
    intro hm
    cases hname _ hm with
    | inl he => exact absurd he (by decide)
    | inr hr => exact hamp (hraw_sub _ hr)
  have hname_eq : '=' ∉ decodeQS (seg.takeWhile (fun c => c ≠ '=')) := by
    intro hm
    cases hname _ hm with
    | inl he => exact absurd he (by decide)
    | inr hr => exact hraw_eq hr
  have hname_pct : '%' ∉ decodeQS (seg.takeWhile (fun c => c ≠ '=')) := by
    intro hm
    cases hname _ hm with
    | inl he => exact absurd he (by decide)
    | inr hr => exact hraw_pct hr
  have hname_plus : '+' ∉ decodeQS (seg.takeWhile (fun c => c ≠ '=')) :=
    decodeQS_no_plus _ hraw_pct
  unfold qsPairOfSegment
  cases hdrop : seg.dropWhile (fun c => c ≠ '=') with
  | nil =>
    simp only [hdrop]
    exact ⟨⟨hname_amp, hname_eq, hname_pct, hname_plus⟩, by simp, by simp, by simp⟩
  | cons c0 vraw =>
    simp only [hdrop]
    have hvsub : ∀ c ∈ vraw, c ∈ seg := by
      intro c hc
      have h1 : c ∈ seg.dropWhile (fun c => c ≠ '=') := by
        rw [hdrop]; exact List.mem_cons_of_mem _ hc
      exact (List.dropWhile_sublist _).mem h1
    have hv_pct : '%' ∉ vraw := fun hm => hpct (hvsub _ hm)
    have hval : ∀ c ∈ decodeQS vraw, c = ' ' ∨ c ∈ vraw := decodeQS_char _ hv_pct
    refine ⟨⟨hname_amp, hname_eq, hname_pct, hname_plus⟩, ?_, ?_, ?_⟩
    · intro hm
      cases hval _ hm with
      | inl he => exact absurd he (by decide)
      | inr hr => exact hamp (hvsub _ hr)
    · intro hm
      cases hval _ hm with
      | inl he => exact absurd he (by decide)
      | inr hr => exact hv_pct hr
    · exact decodeQS_no_plus _ hv_pct

/-- Shared helper: the parse fold over good segments yields a good
table. -/
theorem qsGoodFold : ∀ (segs : List Str) (acc : List (Str × List Str)),
    (∀ p ∈ acc, GoodPair p) →
    (∀ seg ∈ segs, '&' ∉ seg ∧ '%' ∉ seg) →
    ∀ p ∈ segs.foldl (fun acc seg =>
        let pr := qsPairOfSegment seg
        qsInsert pr.1 pr.2 acc) acc,
      GoodPair p := by
  intro segs
  induction segs with
  | nil => intro acc hacc _ p hp; exact hacc p hp
  | cons seg rest ih =>
    intro acc hacc hsegs p hp
    rw [List.foldl_cons] at hp
    have hseg := hsegs seg (List.mem_cons_self _ _)
    have hgood := pairOfSegment_good seg hseg.1 hseg.2
    exact ih _
      (qsInsert_good _ _ acc hacc hgood.1 hgood.2)
      (fun s hs => hsegs s (List.mem_cons_of_mem _ hs)) p hp

/-- Shared helper: every pair parsed from a percent-free query is good. -/
theorem qsParse_good (q : Str) (hq : '%' ∉ q) : ∀ p ∈ qsParse q, GoodPair p := by
  unfold qsParse
  apply qsGoodFold
  · intro p hp
    simp at hp
  · intro seg hseg
    have hmem : seg ∈ splitOnChar '&' q := (List.mem_filter.1 hseg).1
    exact ⟨splitOnChar_not_mem '&' q seg hmem,
      fun hm => hq (splitOnChar_subset '&' q seg '%' hmem hm)⟩

/-- Shared helper: re-parsing a rendered good pair recovers the name and
the comma-joined value. -/
theorem pairOfSegment_render (p : Str × List Str) (h : GoodPair p) :
    qsPairOfSegment (renderQSPair p) = (p.1, joinWithChar ',' p.2) := by
  obtain ⟨k, vs⟩ := p
  obtain ⟨hamp, heq, hpct, hplus, hne, hvals⟩ := h
  have hall : ∀ c ∈ k, (fun c => decide (c ≠ '=')) c = true := by
    intro c hc
    simp only [decide_eq_true_eq, ne_eq]
    intro he
    exact heq (he ▸ hc)
  have hxf : (fun c => decide (c ≠ '=')) '=' = false := by simp
  have htake : (k ++ '=' :: joinWithChar ',' vs).takeWhile (fun c => c ≠ '=') = k :=
    takeWhile_app _ k '=' _ hall hxf
  have hdrop : (k ++ '=' :: joinWithChar ',' vs).dropWhile (fun c => c ≠ '=')
      = '=' :: joinWithChar ',' vs :=
    dropWhile_app _ k '=' _ hall hxf
  have hjpct : '%' ∉ joinWithChar ',' vs := by
    intro hm
    cases joinWithChar_mem ',' vs '%' hm with
    | inl he => exact absurd he (by decide)
    | inr hex =>
      obtain ⟨v, hv, hcv⟩ := hex
      exact (hvals v hv).2.1 hcv
  have hjplus : '+' ∉ joinWithChar ',' vs := by
    intro hm
    cases joinWithChar_mem ',' vs '+' hm with
    | inl he => exact absurd he (by decide)
    | inr hex =>
      obtain ⟨v, hv, hcv⟩ := hex
      exact (hvals v hv).2.2 hcv
  unfold qsPairOfSegment renderQSPair
  simp only [htake, hdrop]
  rw [decodeQS_id k hpct hplus, decodeQS_id _ hjpct hjplus]

/-- Shared helper: parsing the rendered segments of a good, unique-name
table rebuilds the table with comma-joined values. -/
theorem qsRenderFold : ∀ (ps : List (Str × List Str)) (acc : List (Str × List Str)),
    (∀ p ∈ ps, GoodPair p) →
    (ps.map Prod.fst).Nodup →
    (∀ k ∈ ps.map Prod.fst, k ∉ acc.map Prod.fst) →
    (ps.map renderQSPair).foldl (fun acc seg =>
        let pr := qsPairOfSegment seg
        qsInsert pr.1 pr.2 acc) acc
      = acc ++ ps.map (fun p => (p.1, [joinWithChar ',' p.2])) := by
  intro ps
  induction ps with
  | nil => intro acc _ _ _; simp
  | cons p rest ih =>
    intro acc hgood hnd hdis
    rw [List.map_cons, List.foldl_cons]
    have hpair := pairOfSegment_render p (hgood p (List.mem_cons_self _ _))
    simp only [hpair]
    have hstep : qsInsert p.1 (joinWithChar ',' p.2) acc = acc ++ [(p.1, [joinWithChar ',' p.2])] :=
      qsInsert_not_mem _ _ acc (hdis p.1 (by simp))
    rw [hstep, ih (acc ++ [(p.1, [joinWithChar ',' p.2])])
      (fun p' hp' => hgood p' (List.mem_cons_of_mem _ hp'))
      (List.nodup_cons.1 (by simpa using hnd)).2 ?dis]
    · simp
    case dis =>
      intro k' hk'
      rw [List.map_append]
      intro hmem
      cases List.mem_append.1 hmem with
      | inl hacc => exact hdis k' (List.mem_cons_of_mem _ hk') hacc
      | inr hnew =>
        simp at hnew
        have : p.1 ∉ rest.map Prod.fst := (List.nodup_cons.1 (by simpa using hnd)).1
        exact this (hnew ▸ hk')

/-- Shared helper: `qsParse` inverts the rendering of a good table with
unique names (values collapse to their comma-join). -/
theorem qsParse_render (ps : List (Str × List Str))
    (hgood : ∀ p ∈ ps, GoodPair p)
    (hnd : (ps.map Prod.fst).Nodup) (hne : ps ≠ []) :
    qsParse (joinWithChar '&' (ps.map renderQSPair))
      = ps.map (fun p => (p.1, [joinWithChar ',' p.2])) := by
  have hsegamp : ∀ seg ∈ ps.map renderQSPair, '&' ∉ seg := by
    intro seg hseg
    obtain ⟨p, hp, he⟩ := List.mem_map.1 hseg
    subst he
    obtain ⟨hamp, heq, hpct, hplus, hne', hvals⟩ := hgood p hp
    intro hm
    unfold renderQSPair at hm
    cases List.mem_append.1 hm with
    | inl hk => exact hamp hk
    | inr hr =>
      cases List.mem_cons.1 hr with
      | inl he2 => exact absurd he2 (by decide)
      | inr hj =>
        cases joinWithChar_mem ',' p.2 '&' hj with
        | inl he3 => exact absurd he3 (by decide)
        | inr hex =>
          obtain ⟨v, hv, hcv⟩ := hex
          exact (hvals v hv).1 hcv
  have hsegne : ∀ seg ∈ ps.map renderQSPair, seg ≠ [] := by
    intro seg hseg
    obtain ⟨p, hp, he⟩ := List.mem_map.1 hseg
    subst he
    unfold renderQSPair
    simp
  unfold qsParse
  rw [splitOnChar_join '&' (ps.map renderQSPair) hsegamp
    (by simpa using hne)]
  rw [List.filter_eq_self.2 (fun s hs => by
    simpa using hsegne s hs)]
  exact qsRenderFold ps [] hgood hnd (by simp)

/-- C6 (amended).  Query normalization is idempotent on every query
string that contains no percent character: the normalized output
re-parses to the same sorted table (with values comma-joined), so a
second pass reproduces it.  Percent-encoded input breaks this (see the
counterexample): decoding can materialize separators. -/
theorem C6_amended_idempotent (q : Str) (hq : '%' ∉ q) :
    sortQueryString (sortQueryString q) = sortQueryString q := by
  haveI instTot : IsTotal (Str × List Str) (fun a b => a.1 ≤ b.1) :=
    ⟨fun a b => le_total a.1 b.1⟩
  haveI instTrans : IsTrans (Str × List Str) (fun a b => a.1 ≤ b.1) :=
    ⟨fun _ _ _ hab hbc => le_trans hab hbc⟩
  cases hps : sortPairsByName (qsParse q) with
  | nil =>
    have hout : sortQueryString q = [] := by
      rw [sortQueryString_eq_render, hps]
      rfl
    rw [hout]
    rfl
  | cons p0 ps' =>
    rw [sortQueryString_eq_render q]
    set ps := sortPairsByName (qsParse q) with hpsdef
    have hperm : ps.Perm (qsParse q) := List.perm_insertionSort _ _
    have hgood : ∀ p ∈ ps, GoodPair p :=
      fun p hp => qsParse_good q hq p (hperm.subset hp)
    have hnd : (ps.map Prod.fst).Nodup :=
      (hperm.map Prod.fst).nodup_iff.2 (qsParse_nodupKeys q)
    have hsorted : ps.Sorted (fun a b => a.1 ≤ b.1) :=
      List.sorted_insertionSort _ _
    have hne : ps ≠ [] := by rw [hps]; exact fun habs => List.noConfusion habs
    have hreparse : qsParse (joinWithChar '&' (ps.map renderQSPair))
        = ps.map (fun p => (p.1, [joinWithChar ',' p.2])) :=
      qsParse_render ps hgood hnd hne
    rw [sortQueryString_eq_render (joinWithChar '&' (ps.map renderQSPair)), hreparse]
    have hsorted2 : (ps.map (fun p => (p.1, [joinWithChar ',' p.2]))).Sorted
        (fun a b => a.1 ≤ b.1) := by
      rw [List.Sorted, List.pairwise_map]
      exact hsorted
    rw [show sortPairsByName (ps.map (fun p => (p.1, [joinWithChar ',' p.2])))
        = ps.map (fun p => (p.1, [joinWithChar ',' p.2])) from
      List.Sorted.insertionSort_eq hsorted2]
    rw [List.map_map]
    have hrender : (renderQSPair ∘ fun p => (p.1, [joinWithChar ',' p.2])) = renderQSPair := by
      funext p
      rfl
    rw [hrender]

/-- Witness for C6 (amended) on a percent-free query with a repeated
name and a plus sign. -/
theorem C6_witness :
    sortQueryString (sortQueryString ("b=2&a+x=1&a=3&a=4".toList))
      = sortQueryString ("b=2&a+x=1&a=3&a=4".toList) :=
  C6_amended_idempotent ("b=2&a+x=1&a=3&a=4".toList) (by decide)

/-- Shared helper: whitespace surviving `collapseWs` is a single space. -/
theorem collapseWs_ws_space : ∀ (s : Str) (c : Char),
    c ∈ collapseWs s → isWsChar c = true → c = ' ' := by
  intro s
  induction s with
  | nil => intro c hc _; simp [collapseWs] at hc
  | cons c1 rest ih =>
    intro c hc hws
    cases rest with
    | nil =>
      by_cases h1 : isWsChar c1
      · rw [show collapseWs [c1] = [' '] from by simp [collapseWs, h1]] at hc
        simpa using hc
      · rw [show collapseWs [c1] = [c1] from by simp [collapseWs, h1]] at hc
        simp at hc
        subst hc
        exact absurd hws (by simpa using h1)
    | cons c2 rest' =>
      by_cases h1 : isWsChar c1
      · by_cases h2 : isWsChar c2
        · rw [show collapseWs (c1 :: c2 :: rest') = collapseWs (c2 :: rest') from by
            simp [collapseWs, h1, h2]] at hc
          exact ih c hc hws
        · rw [show collapseWs (c1 :: c2 :: rest') = ' ' :: collapseWs (c2 :: rest') from by
            simp [collapseWs, h1, h2]] at hc
          cases List.mem_cons.1 hc with
          | inl he => exact he
          | inr ht => exact ih c ht hws
      · rw [show collapseWs (c1 :: c2 :: rest') = c1 :: collapseWs (c2 :: rest') from by
          simp [collapseWs, h1]] at hc
        cases List.mem_cons.1 hc with
        | inl he => subst he; exact absurd hws (by simpa using h1)
        | inr ht => exact ih c ht hws

/-- Shared helper: `collapseWs` of a nonempty string starts with its
first character, whitespace replaced by a space. -/
theorem collapseWs_cons : ∀ (r : Str) (c : Char),
    ∃ t, collapseWs (c :: r) = (if isWsChar c then ' ' else c) :: t := by
  intro r
  induction r with
  | nil =>
    intro c
    by_cases h : isWsChar c
    · exact ⟨[], by simp [collapseWs, h]⟩
    · exact ⟨[], by simp [collapseWs, h]⟩
  | cons c2 rest ih =>
    intro c
    by_cases h1 : isWsChar c
    · by_cases h2 : isWsChar c2
      · obtain ⟨t, ht⟩ := ih c2
        refine ⟨t, ?_⟩
        rw [show collapseWs (c :: c2 :: rest) = collapseWs (c2 :: rest) from by
          simp [collapseWs, h1, h2], ht]
        simp [h1, h2]
      · exact ⟨collapseWs (c2 :: rest), by simp [collapseWs, h1, h2]⟩
    · exact ⟨collapseWs (c2 :: rest), by simp [collapseWs, h1]⟩

/-- Shared helper: `collapseWs` output has no whitespace runs. -/
theorem collapseWs_noRun : ∀ (s : Str), noWsRun (collapseWs s) = true := by
  intro s
  induction s with
  | nil => rfl
  | cons c1 rest ih =>
    cases rest with
    | nil =>
      by_cases h1 : isWsChar c1
      · simp [collapseWs, h1, noWsRun]
      · simp [collapseWs, h1, noWsRun]
    | cons c2 rest' =>
      by_cases h1 : isWsChar c1
      · by_cases h2 : isWsChar c2
        · rw [show collapseWs (c1 :: c2 :: rest') = collapseWs (c2 :: rest') from by
            simp [collapseWs, h1, h2]]
          exact ih
        · rw [show collapseWs (c1 :: c2 :: rest') = ' ' :: collapseWs (c2 :: rest') from by
            simp [collapseWs, h1, h2]]
          obtain ⟨t, ht⟩ := collapseWs_cons rest' c2
          rw [ht]
          rw [ht] at ih
          simp only [noWsRun, Bool.and_eq_true, Bool.not_eq_true']
          refine ⟨?_, ih⟩
          simp [h2]
      · rw [show collapseWs (c1 :: c2 :: rest') = c1 :: collapseWs (c2 :: rest') from by
          simp [collapseWs, h1]]
        obtain ⟨t, ht⟩ := collapseWs_cons rest' c2
        rw [ht]
        rw [ht] at ih
        simp only [noWsRun, Bool.and_eq_true, Bool.not_eq_true']
        refine ⟨?_, ih⟩
        simp [h1]

/-- Shared helper: `noWsRun` passes to the tail. -/
theorem noWsRun_tail : ∀ (c : Char) (t : Str),
    noWsRun (c :: t) = true → noWsRun t = true := by
  intro c t h
  cases t with
  | nil => rfl
  | cons c2 r =>
    simp only [noWsRun, Bool.and_eq_true] at h
    exact h.2

/-- Shared helper: `noWsRun` holds for suffixes. -/
theorem noWsRun_right : ∀ (a t : Str), noWsRun (a ++ t) = true → noWsRun t = true := by
  intro a
  induction a with
  | nil => intro t h; exact h
  | cons c rest ih =>
    intro t h
    exact ih t (noWsRun_tail c (rest ++ t) h)

/-- Shared helper: `noWsRun` holds for prefixes. -/
theorem noWsRun_left : ∀ (a b : Str), noWsRun (a ++ b) = true → noWsRun a = true := by
  intro a
  induction a with
  | nil => intro _ _; rfl
  | cons c1 rest ih =>
    intro b h
    cases rest with
    | nil => rfl
    | cons c2 r =>
      rw [List.cons_append, List.cons_append] at h
      simp only [noWsRun, Bool.and_eq_true] at h ⊢
      exact ⟨h.1, by
        have := ih b (by rw [List.cons_append]; exact h.2)
        exact this⟩

/-- Shared helper: characters of the trimmed string come from the
original. -/
theorem jsTrim_subset : ∀ (s : Str) (c : Char), c ∈ jsTrim s → c ∈ s := by
  intro s c hc
  unfold jsTrim at hc
  rw [List.mem_reverse] at hc
  have h1 := (List.dropWhile_sublist _).mem hc
  rw [List.mem_reverse] at h1
  exact (List.dropWhile_sublist _).mem h1

/-- Shared helper: the head surviving `dropWhile` fails the predicate. -/
theorem dropWhile_head_false (p : Char → Bool) : ∀ (l : List Char) (c : Char) (r : Str),
    l.dropWhile p = c :: r → p c = false := by
  intro l
  induction l with
  | nil => intro c r h; cases h
  | cons c0 rest ih =>
    intro c r h
    by_cases h0 : p c0
    · rw [List.dropWhile_cons_of_pos h0] at h
      exact ih c r h
    · rw [List.dropWhile_cons_of_neg h0] at h
      cases h
      simpa using h0

/-- Shared helper: the trimmed string is a prefix of the
front-trimmed string (which is a suffix of the original). -/
theorem jsTrim_decomp (s : Str) :
    ∃ a b, s.dropWhile isWsChar = jsTrim s ++ b ∧ s = a ++ s.dropWhile isWsChar := by
  obtain ⟨a, ha⟩ := List.dropWhile_suffix (l := s) isWsChar
  obtain ⟨pre, hpre⟩ := List.dropWhile_suffix (l := (s.dropWhile isWsChar).reverse) isWsChar
  refine ⟨a, pre.reverse, ?_, ha.symm⟩
  unfold jsTrim
  have : (s.dropWhile isWsChar).reverse
      = pre ++ ((s.dropWhile isWsChar).reverse).dropWhile isWsChar := hpre.symm
  calc s.dropWhile isWsChar
      = ((s.dropWhile isWsChar).reverse).reverse := by rw [List.reverse_reverse]
    _ = (pre ++ ((s.dropWhile isWsChar).reverse).dropWhile isWsChar).reverse := by rw [← this]
    _ = (((s.dropWhile isWsChar).reverse).dropWhile isWsChar).reverse ++ pre.reverse := by
        rw [List.reverse_append]

/-- Shared helper: trimming is the identity on strings whose first and
last characters are not whitespace. -/
theorem jsTrim_of_clean (t : Str)
    (hhead : ∀ c r, t = c :: r → isWsChar c = false)
    (hlast : ∀ c r, t.reverse = c :: r → isWsChar c = false) :
    jsTrim t = t := by
  have h1 : t.dropWhile isWsChar = t := by
    cases ht : t with
    | nil => rfl
    | cons c r => rw [List.dropWhile_cons_of_neg (by simp [hhead c r ht])]
  unfold jsTrim
  rw [h1]
  have h2 : t.reverse.dropWhile isWsChar = t.reverse := by
    cases ht : t.reverse with
    | nil => rfl
    | cons c r => rw [List.dropWhile_cons_of_neg (by simp [hlast c r ht])]
  rw [h2, List.reverse_reverse]

/-- Shared helper: collapsing is the identity on run-free strings whose
whitespace is all spaces. -/
theorem collapseWs_of_clean : ∀ (t : Str),
    noWsRun t = true → (∀ c ∈ t, isWsChar c = true → c = ' ') →
    collapseWs t = t := by
  intro t
  induction t with
  | nil => intro _ _; rfl
  | cons c1 rest ih =>
    intro hrun hsp
    cases rest with
    | nil =>
      by_cases h1 : isWsChar c1
      · have := hsp c1 (List.mem_cons_self _ _) h1
        subst this
        simp [collapseWs]
      · simp [collapseWs, h1]
    | cons c2 rest' =>
      have htail : collapseWs (c2 :: rest') = c2 :: rest' :=
        ih (noWsRun_tail _ _ hrun) (fun c hc hw => hsp c (List.mem_cons_of_mem _ hc) hw)
      by_cases h1 : isWsChar c1
      · have hc1 : c1 = ' ' := hsp c1 (List.mem_cons_self _ _) h1
        have h2 : isWsChar c2 = false := by
          simp only [noWsRun, Bool.and_eq_true, Bool.not_eq_true', Bool.and_eq_false_iff] at hrun
          cases hrun.1 with
          | inl habs => rw [habs] at h1; cases h1
          | inr hb => exact hb
        rw [show collapseWs (c1 :: c2 :: rest') = ' ' :: collapseWs (c2 :: rest') from by
          simp [collapseWs, h1, h2], htail, hc1]
      · rw [show collapseWs (c1 :: c2 :: rest') = c1 :: collapseWs (c2 :: rest') from by
          simp [collapseWs, h1], htail]

/-- Shared helper: `normWhitespace` is idempotent. -/
theorem normWhitespace_idem (s : Str) :
    normWhitespace (normWhitespace s) = normWhitespace s := by
  unfold normWhitespace
  set t := jsTrim (collapseWs s) with hdef
  obtain ⟨a, b, hsplit, hdrop⟩ := jsTrim_decomp (collapseWs s)
  have hrun_drop : noWsRun ((collapseWs s).dropWhile isWsChar) = true := by
    have := collapseWs_noRun s
    rw [hdrop] at this
    exact noWsRun_right a _ this
  have hrun_t : noWsRun t = true := by
    rw [← hdef] at hsplit
    rw [hsplit] at hrun_drop
    exact noWsRun_left _ _ hrun_drop
  have hsp_t : ∀ c ∈ t, isWsChar c = true → c = ' ' := by
    intro c hc hw
    exact collapseWs_ws_space s c (jsTrim_subset _ c hc) hw
  have hcoll : collapseWs t = t := collapseWs_of_clean t hrun_t hsp_t
  rw [hcoll]
  apply jsTrim_of_clean
  · intro c r ht
    rw [← hdef] at hsplit
    rw [ht] at hsplit
    have hhead : (collapseWs s).dropWhile isWsChar = c :: (r ++ b) := by
      rw [hsplit]; rfl
    exact dropWhile_head_false isWsChar _ c _ hhead
  · intro c r ht
    have hrev : t.reverse = ((collapseWs s).dropWhile isWsChar).reverse.dropWhile isWsChar := by
      rw [hdef]
      unfold jsTrim
      rw [List.reverse_reverse]
    rw [ht] at hrev
    exact dropWhile_head_false isWsChar _ c _ hrev.symm

/-- Shared helper: digit characters are digits. -/
theorem digitChar_digit (d : Nat) (h : d < 10) : isDigitChar (digitChar d) = true := by
  interval_cases d <;> decide

/-- Shared helper: numeric value of a digit character. -/
theorem digitChar_toNat (d : Nat) (h : d < 10) : (digitChar d).toNat - '0'.toNat = d := by
  interval_cases d <;> decide

/-- Shared helper: nonzero digits are not `0`. -/
theorem digitChar_ne_zero (d : Nat) (h1 : 1 ≤ d) (h2 : d < 10) : digitChar d ≠ '0' := by
  interval_cases d <;> decide

/-- Shared helper: `digitsVal` across an appended digit. -/
theorem digitsVal_append (xs : Str) (c : Char) :
    digitsVal (xs ++ [c]) = 10 * digitsVal xs + (c.toNat - '0'.toNat) := by
  unfold digitsVal
  rw [List.foldl_append]
  simp [Nat.mul_comm]

/-- Shared helper: specification of the decimal printer — nonempty,
all digits, value-correct, and leading-zero-free for positive numbers. -/
theorem natReprAux_spec : ∀ (fuel n : Nat), n < fuel →
    natReprAux fuel n ≠ [] ∧
    (∀ c ∈ natReprAux fuel n, isDigitChar c = true) ∧
    digitsVal (natReprAux fuel n) = n ∧
    (1 ≤ n → ∀ c r, natReprAux fuel n = c :: r → c ≠ '0') := by
  intro fuel
  induction fuel with
  | zero => intro n h; omega
  | succ fuel ih =>
    intro n h
    by_cases hn : n < 10
    · rw [show natReprAux (fuel + 1) n = [digitChar n] from by simp [natReprAux, hn]]
      refine ⟨by simp, ?_, ?_, ?_⟩
      · intro c hc
        simp at hc
        subst hc
        exact digitChar_digit n hn
      · show digitsVal ([] ++ [digitChar n]) = n
        rw [digitsVal_append, digitChar_toNat n hn]
        simp [digitsVal]
      · intro h1 c r he
        simp at he
        rw [← he.1]
        exact digitChar_ne_zero n h1 hn
    · have h10 : 10 ≤ n := by omega
      have hdiv : n / 10 < fuel := by
        have h1 : n / 10 < n := Nat.div_lt_self (by omega) (by omega)
        omega
      obtain ⟨hne, hdig, hval, hlead⟩ := ih (n / 10) hdiv
      rw [show natReprAux (fuel + 1) n
          = natReprAux fuel (n / 10) ++ [digitChar (n % 10)] from by
        simp [natReprAux, hn]]
      refine ⟨by simp, ?_, ?_, ?_⟩
      · intro c hc
        cases List.mem_append.1 hc with
        | inl hl => exact hdig c hl
        | inr hr =>
          simp at hr
          subst hr
          exact digitChar_digit _ (Nat.mod_lt n (by omega))
      · rw [digitsVal_append, hval, digitChar_toNat _ (Nat.mod_lt n (by omega))]
        omega
      · intro _ c r he
        cases hrep : natReprAux fuel (n / 10) with
        | nil => exact absurd hrep hne
        | cons c0 r0 =>
          rw [hrep] at he
          simp at he
          rw [← he.1]
          exact hlead (by omega) c0 r0 hrep

/-- Shared helper: reading back a printed natural number. -/
theorem readJNat_append (n : Nat) (rest : Str) (h : delimOk rest) :
    readJNat (natRepr n ++ rest) = some (n, rest) := by
  obtain ⟨hne, hdig, hval, hlead⟩ := natReprAux_spec (n + 1) n (by omega)
  by_cases hn : n = 0
  · subst hn
    rw [show natRepr 0 = ['0'] from rfl]
    cases h with
    | inl he => subst he; rfl
    | inr hex =>
      obtain ⟨c, r, he, hc⟩ := hex
      subst he
      simp [readJNat, hc]
  · cases hrep : natReprAux (n + 1) n with
    | nil => exact absurd hrep hne
    | cons c0 ds =>
      have hc0 : isDigitChar c0 = true := hdig c0 (by rw [hrep]; exact List.mem_cons_self _ _)
      have hc0z : ¬ c0 = '0' := hlead (by omega) c0 ds hrep
      have hds : ∀ c ∈ ds, isDigitChar c = true :=
        fun c hc => hdig c (by rw [hrep]; exact List.mem_cons_of_mem _ hc)
      have htake : (ds ++ rest).takeWhile isDigitChar = ds := by
        cases h with
        | inl he =>
          subst he
          rw [List.append_nil]
          rw [List.takeWhile_eq_self_iff.2 hds]
        | inr hex =>
          obtain ⟨c, r, he, hc⟩ := hex
          subst he
          exact takeWhile_app isDigitChar ds c r hds hc
      have hdrop : (ds ++ rest).dropWhile isDigitChar = rest := by
        cases h with
        | inl he =>
          subst he
          rw [List.append_nil]
          rw [List.dropWhile_eq_nil_iff.2 (fun c hc => hds c hc)]
        | inr hex =>
          obtain ⟨c, r, he, hc⟩ := hex
          subst he
          exact dropWhile_app isDigitChar ds c r hds hc
      rw [show natRepr n = c0 :: ds from hrep]
      rw [List.cons_append]
      have hred : readJNat (c0 :: (ds ++ rest))
          = some (digitsVal (c0 :: (ds ++ rest).takeWhile isDigitChar),
              (ds ++ rest).dropWhile isDigitChar) := by
        simp [readJNat, hc0z, hc0]
      rw [hred, htake, hdrop]
      rw [hrep] at hval
      rw [hval]

/-- Shared helper: a digit character is none of the parser's dispatch
characters, is not a closing bracket, and is not JSON whitespace. -/
theorem isDigitChar_class (c : Char) (h : isDigitChar c = true) :
    ¬ c = 'n' ∧ ¬ c = 't' ∧ ¬ c = 'f' ∧ ¬ c = '"' ∧ ¬ c = '-' ∧ ¬ c = '[' ∧
      ¬ c = '\x7b' ∧ ¬ c = ']' ∧ ¬ c = '\x7d' ∧ isJsonWs c = false := by
  have hne : ∀ d : Char, isDigitChar d = false → ¬ c = d := by
    intro d hd he
    rw [he, hd] at h
    exact Bool.noConfusion h
  refine ⟨hne 'n' (by decide), hne 't' (by decide), hne 'f' (by decide), hne '"' (by decide),
    hne '-' (by decide), hne '[' (by decide), hne '\x7b' (by decide), hne ']' (by decide),
    hne '\x7d' (by decide), ?_⟩
  have h1 := hne ' ' (by decide)
  have h2 := hne '\t' (by decide)
  have h3 := hne '\n' (by decide)
  have h4 := hne '\x0d' (by decide)
  simp [isJsonWs, h1, h2, h3, h4]

/-- Shared helper: whitespace skipping stops at a non-whitespace head. -/
theorem skipJsonWs_cons (c : Char) (l : Str) (h : isJsonWs c = false) :
    skipJsonWs (c :: l) = c :: l := by
  simp [skipJsonWs, List.dropWhile_cons, h]

/-- Shared helper: reading back a rendered string literal. -/
theorem readJStr_append : ∀ (s rest : Str), s.all (fun c => isJStrChar c) = true →
    readJStr (s ++ '"' :: rest) = some (s, rest) := by
  intro s
  induction s with
  | nil => intro rest _; rfl
  | cons c cs ih =>
    intro rest hall
    rw [List.all_cons] at hall
    have hc : isJStrChar c = true := (Bool.and_eq_true_iff.1 hall).1
    have hcs := (Bool.and_eq_true_iff.1 hall).2
    have hcq : ¬ c = '"' := by
      intro he
      rw [he] at hc
      exact absurd hc (by decide)
    show readJStr (c :: (cs ++ '"' :: rest)) = _
    simp only [readJStr, if_neg hcq, if_pos hc, ih rest hcs]

/-- Shared helper: a rendering never starts with whitespace or a closing
bracket. -/
theorem render_head (v : JVal) : ∃ c t, render v = c :: t ∧ isJsonWs c = false ∧
    ¬ c = ']' ∧ ¬ c = '\x7d' := by
  cases v with
  | jnull => exact ⟨'n', _, rfl, by decide, by decide, by decide⟩
  | jbool b =>
    cases b with
    | false => exact ⟨'f', _, rfl, by decide, by decide, by decide⟩
    | true => exact ⟨'t', _, rfl, by decide, by decide, by decide⟩
  | jnum n =>
    by_cases hn : n < 0
    · refine ⟨'-', natRepr n.natAbs, ?_, by decide, by decide, by decide⟩
      simp [render, intRepr, hn]
    · obtain ⟨hne, hdig, _, _⟩ := natReprAux_spec (n.toNat + 1) n.toNat (by omega)
      cases hrep : natReprAux (n.toNat + 1) n.toNat with
      | nil => exact absurd hrep hne
      | cons c0 ds =>
        have hc0 : isDigitChar c0 = true :=
          hdig c0 (by rw [hrep]; exact List.mem_cons_self _ _)
        obtain ⟨_, _, _, _, _, _, _, hbr, hbc, hws⟩ := isDigitChar_class c0 hc0
        refine ⟨c0, ds, ?_, hws, hbr, hbc⟩
        simp [render, intRepr, hn, natRepr, hrep]
  | jstr s => exact ⟨'"', _, rfl, by decide, by decide, by decide⟩
  | jarr xs => exact ⟨'[', _, rfl, by decide, by decide, by decide⟩
  | jobj fs => exact ⟨'\x7b', _, rfl, by decide, by decide, by decide⟩

/-- Shared helper: an array continuation starts with a non-digit. -/
theorem delimOk_arrTail (xs : JArr) (rest : Str) : delimOk (arrTail xs rest) := by
  cases xs with
  | nil => exact Or.inr ⟨']', rest, rfl, by decide⟩
  | cons y ys => exact Or.inr ⟨',', _, rfl, by decide⟩

/-- Shared helper: an object continuation starts with a non-digit. -/
theorem delimOk_objTail (fs : JObj) (rest : Str) : delimOk (objTail fs rest) := by
  cases fs with
  | nil => exact Or.inr ⟨'\x7d', rest, rfl, by decide⟩
  | cons k v fs' => exact Or.inr ⟨',', _, rfl, by decide⟩

/-- Shared helper: joined array elements followed by the closing bracket
decompose as first element plus continuation. -/
theorem join_arrTail : ∀ (xs : JArr) (x : JVal) (rest : Str),
    joinWithChar ',' (render x :: renderArrList xs) ++ ']' :: rest
      = render x ++ arrTail xs rest
  | .nil, x, rest => rfl
  | .cons y ys, x, rest => by
    simp only [renderArrList]
    have h1 : joinWithChar ',' (render x :: render y :: renderArrList ys)
        = render x ++ ',' :: joinWithChar ',' (render y :: renderArrList ys) := rfl
    rw [h1, List.append_assoc, List.cons_append, join_arrTail ys y rest]
    rfl

/-- Shared helper: joined object members followed by the closing brace
decompose as first member plus continuation. -/
theorem join_objTail : ∀ (fs : JObj) (k : Str) (v : JVal) (rest : Str),
    joinWithChar ',' (('"' :: k ++ '"' :: ':' :: render v) :: renderObjList fs) ++ '\x7d' :: rest
      = '"' :: k ++ '"' :: ':' :: render v ++ objTail fs rest
  | .nil, k, v, rest => by
    show ('"' :: k ++ '"' :: ':' :: render v) ++ '\x7d' :: rest = _
    simp [List.append_assoc, objTail]
  | .cons k' v' fs', k, v, rest => by
    simp only [renderObjList]
    have h1 : joinWithChar ','
          (('"' :: k ++ '"' :: ':' :: render v) ::
            ('"' :: k' ++ '"' :: ':' :: render v') :: renderObjList fs')
        = ('"' :: k ++ '"' :: ':' :: render v) ++ ',' :: joinWithChar ','
            (('"' :: k' ++ '"' :: ':' :: render v') :: renderObjList fs') := rfl
    rw [h1, List.append_assoc, List.cons_append ',', join_objTail fs' k' v' rest]
    simp [objTail, List.append_assoc]

/-- Shared helper: prepending a fresh key is plain cons. -/
theorem objCombine_of_none (k : Str) (v : JVal) (fs : JObj)
    (h : objLookup k fs = none) : objCombine k v fs = .cons k v fs := by
  simp [objCombine, h]

/-- Shared helper: every value needs at least one unit of fuel. -/
theorem fuelV_pos (v : JVal) : 1 ≤ fuelV v := by
  cases v with
  | jnull => exact le_refl 1
  | jbool b => exact le_refl 1
  | jnum n => exact le_refl 1
  | jstr s => exact le_refl 1
  | jarr xs => simp only [fuelV]; omega
  | jobj fs => simp only [fuelV]; omega

/-- Shared helper: the parser reads back exactly what the serializer
printed, for well-formed values, any delimiter-safe continuation and any
sufficient fuel (mutual statement for values, array items and object
members). -/
theorem parse_render_aux : ∀ (fuel : Nat),
    (∀ (v : JVal) (rest : Str), jwf v = true → delimOk rest → fuelV v ≤ fuel →
      parseVal fuel (render v ++ rest) = some (v, rest)) ∧
    (∀ (x : JVal) (xs : JArr) (rest : Str), jwf x = true → jwfArr xs = true →
      fuelA (.cons x xs) ≤ fuel →
      parseArrItems fuel (render x ++ arrTail xs rest) = some (.cons x xs, rest)) ∧
    (∀ (k : Str) (v : JVal) (fs : JObj) (rest : Str),
      k.all (fun c => isJStrChar c) = true → jwf v = true → jwfObj fs = true →
      objLookup k fs = none → fuelO (.cons k v fs) ≤ fuel →
      parseObjItems fuel ('"' :: k ++ '"' :: ':' :: render v ++ objTail fs rest)
        = some (.cons k v fs, rest)) := by
  intro fuel
  induction fuel with
  | zero =>
    refine ⟨?_, ?_, ?_⟩
    · intro v rest _ _ hf
      have := fuelV_pos v
      omega
    · intro x xs rest _ _ hf
      simp only [fuelA] at hf
      omega
    · intro k v fs rest _ _ _ _ hf
      simp only [fuelO] at hf
      omega
  | succ fuel ih =>
    obtain ⟨ih1, ih2, ih3⟩ := ih
    refine ⟨?_, ?_, ?_⟩
    · intro v rest hwf hrest hf
      cases v with
      | jnull => exact rfl
      | jbool b =>
        cases b with
        | false => exact rfl
        | true => exact rfl
      | jstr s =>
        have h1 : render (JVal.jstr s) ++ rest = '"' :: (s ++ '"' :: rest) := by
          show ('"' :: s ++ ['"']) ++ rest = _
          simp
        rw [h1]
        have h2 : parseVal (fuel + 1) ('"' :: (s ++ '"' :: rest))
            = (match readJStr (s ++ '"' :: rest) with
               | some (str, rest') => some (.jstr str, rest')
               | none => none) := rfl
        rw [h2, readJStr_append s rest (by simpa [jwf] using hwf)]
      | jnum n =>
        by_cases hn : n < 0
        · have h1 : render (JVal.jnum n) ++ rest = '-' :: (natRepr n.natAbs ++ rest) := by
            simp [render, intRepr, hn]
          rw [h1]
          have h2 : parseVal (fuel + 1) ('-' :: (natRepr n.natAbs ++ rest))
              = (match readJNat (natRepr n.natAbs ++ rest) with
                 | some (m, rest') => some (.jnum (-(m : Int)), rest')
                 | none => none) := rfl
          rw [h2, readJNat_append n.natAbs rest hrest]
          show some (JVal.jnum (-((n.natAbs : Nat) : Int)), rest) = some (JVal.jnum n, rest)
          have h3 : -((n.natAbs : Nat) : Int) = n := by omega
          rw [h3]
        · obtain ⟨hne, hdig, _, _⟩ := natReprAux_spec (n.toNat + 1) n.toNat (by omega)
          cases hrep : natReprAux (n.toNat + 1) n.toNat with
          | nil => exact absurd hrep hne
          | cons c0 ds =>
            have hc0 : isDigitChar c0 = true :=
              hdig c0 (by rw [hrep]; exact List.mem_cons_self _ _)
            obtain ⟨e1, e2, e3, e4, e5, e6, e7, _, _, _⟩ := isDigitChar_class c0 hc0
            have h1 : render (JVal.jnum n) ++ rest = c0 :: (ds ++ rest) := by
              simp [render, intRepr, hn, natRepr, hrep]
            rw [h1]
            simp only [parseVal]
            rw [if_neg e1, if_neg e2, if_neg e3, if_neg e4, if_neg e5, if_neg e6, if_neg e7]
            have h2 : (c0 :: (ds ++ rest) : Str) = natRepr n.toNat ++ rest := by
              simp [natRepr, hrep]
            rw [h2, readJNat_append n.toNat rest hrest]
            show some (JVal.jnum ((n.toNat : Nat) : Int), rest) = some (JVal.jnum n, rest)
            have h3 : ((n.toNat : Nat) : Int) = n := by omega
            rw [h3]
      | jarr xs =>
        cases xs with
        | nil => exact rfl
        | cons x xs' =>
          simp only [jwf, jwfArr, Bool.and_eq_true] at hwf
          obtain ⟨hwfx, hwfxs⟩ := hwf
          have hsh : render (JVal.jarr (.cons x xs')) ++ rest
              = '[' :: (render x ++ arrTail xs' rest) := by
            show ('[' :: joinWithChar ',' (renderArrList (.cons x xs')) ++ [']']) ++ rest = _
            simp only [renderArrList, List.cons_append, List.append_assoc,
              List.singleton_append, List.nil_append]
            rw [join_arrTail xs' x rest]
          rw [hsh]
          obtain ⟨c, t, hct, hcws, hcbr, _⟩ := render_head x
          rw [hct, List.cons_append]
          have hskip : skipJsonWs (c :: (t ++ arrTail xs' rest))
              = c :: (t ++ arrTail xs' rest) := skipJsonWs_cons c _ hcws
          simp only [parseVal]
          rw [if_neg (show ¬('[' : Char) = 'n' from by decide),
            if_neg (show ¬('[' : Char) = 't' from by decide),
            if_neg (show ¬('[' : Char) = 'f' from by decide),
            if_neg (show ¬('[' : Char) = '"' from by decide),
            if_neg (show ¬('[' : Char) = '-' from by decide),
            if_true, hskip]
          split
          · next r h => exact absurd (List.cons.inj h).1 hcbr
          · have hback : (c : Char) :: (t ++ arrTail xs' rest)
                = render x ++ arrTail xs' rest := by
              rw [hct]
              rfl
            rw [hback, ih2 x xs' rest hwfx hwfxs
              (by simp only [fuelV] at hf; omega)]
      | jobj fs =>
        cases fs with
        | nil => exact rfl
        | cons k v fs' =>
          simp only [jwf, jwfObj, Bool.and_eq_true] at hwf
          obtain ⟨⟨⟨hk, hno⟩, hwfv⟩, hwffs⟩ := hwf
          have holk : objLookup k fs' = none := by
            cases holk' : objLookup k fs' with
            | some w =>
              rw [holk'] at hno
              simp at hno
            | none => rfl
          have hsh : render (JVal.jobj (.cons k v fs')) ++ rest
              = '\x7b' :: ('"' :: k ++ '"' :: ':' :: render v ++ objTail fs' rest) := by
            show ('\x7b' :: joinWithChar ',' (renderObjList (.cons k v fs')) ++ ['\x7d']) ++ rest = _
            rw [List.append_assoc, List.singleton_append, List.cons_append]
            show '\x7b' :: (joinWithChar ','
                (('"' :: k ++ '"' :: ':' :: render v) :: renderObjList fs') ++ '\x7d' :: rest) = _
            rw [join_objTail fs' k v rest]
          rw [hsh]
          have hskip : skipJsonWs ('"' :: (k ++ '"' :: ':' :: (render v ++ objTail fs' rest)))
              = '"' :: (k ++ '"' :: ':' :: (render v ++ objTail fs' rest)) :=
            skipJsonWs_cons '"' _ (by decide)
          simp only [parseVal]
          rw [if_neg (show ¬('\x7b' : Char) = 'n' from by decide),
            if_neg (show ¬('\x7b' : Char) = 't' from by decide),
            if_neg (show ¬('\x7b' : Char) = 'f' from by decide),
            if_neg (show ¬('\x7b' : Char) = '"' from by decide),
            if_neg (show ¬('\x7b' : Char) = '-' from by decide),
            if_neg (show ¬('\x7b' : Char) = '[' from by decide),
            if_true]
          rw [show ('"' :: k ++ '"' :: ':' :: render v ++ objTail fs' rest : Str)
              = '"' :: (k ++ '"' :: ':' :: (render v ++ objTail fs' rest)) from by simp, hskip]
          split
          · next r h => exact absurd (List.cons.inj h).1 (by decide)
          · rw [show ('"' : Char) :: (k ++ '"' :: ':' :: (render v ++ objTail fs' rest))
                = '"' :: k ++ '"' :: ':' :: render v ++ objTail fs' rest from by simp,
              ih3 k v fs' rest hk hwfv hwffs holk (by simp only [fuelV] at hf; omega)]
    · intro x xs rest hwfx hwfxs hf
      have hv : parseVal fuel (render x ++ arrTail xs rest) = some (x, arrTail xs rest) :=
        ih1 x (arrTail xs rest) hwfx (delimOk_arrTail xs rest)
          (by simp only [fuelA] at hf; omega)
      cases xs with
      | nil =>
        have hskip : skipJsonWs (arrTail JArr.nil rest) = ']' :: rest :=
          skipJsonWs_cons ']' rest (by decide)
        simp only [parseArrItems, hv, hskip]
      | cons y ys =>
        simp only [jwfArr, Bool.and_eq_true] at hwfxs
        obtain ⟨hwfy, hwfys⟩ := hwfxs
        have hskip : skipJsonWs (arrTail (JArr.cons y ys) rest)
            = ',' :: (render y ++ arrTail ys rest) := by
          show skipJsonWs (',' :: (render y ++ arrTail ys rest)) = _
          exact skipJsonWs_cons ',' _ (by decide)
        obtain ⟨c, t, hct, hcws, _, _⟩ := render_head y
        have hskip2 : skipJsonWs (render y ++ arrTail ys rest)
            = render y ++ arrTail ys rest := by
          rw [hct, List.cons_append]
          exact skipJsonWs_cons c _ hcws
        have hrec : parseArrItems fuel (render y ++ arrTail ys rest)
            = some (.cons y ys, rest) :=
          ih2 y ys rest hwfy hwfys (by simp only [fuelA] at hf ⊢; omega)
        simp only [parseArrItems, hv, hskip, hskip2, hrec]
    · intro k v fs rest hk hwfv hwffs holk hf
      have hstr : readJStr (k ++ '"' :: ':' :: (render v ++ objTail fs rest))
          = some (k, ':' :: (render v ++ objTail fs rest)) :=
        readJStr_append k _ hk
      have hskipc : skipJsonWs (':' :: (render v ++ objTail fs rest))
          = ':' :: (render v ++ objTail fs rest) := skipJsonWs_cons ':' _ (by decide)
      obtain ⟨c, t, hct, hcws, _, _⟩ := render_head v
      have hskipv : skipJsonWs (render v ++ objTail fs rest)
          = render v ++ objTail fs rest := by
        rw [hct, List.cons_append]
        exact skipJsonWs_cons c _ hcws
      have hv : parseVal fuel (render v ++ objTail fs rest) = some (v, objTail fs rest) :=
        ih1 v _ hwfv (delimOk_objTail fs rest) (by simp only [fuelO] at hf; omega)
      cases fs with
      | nil =>
        have hskipt : skipJsonWs (objTail JObj.nil rest) = '\x7d' :: rest :=
          skipJsonWs_cons '\x7d' rest (by decide)
        simp only [parseObjItems, List.cons_append, List.append_assoc, hstr, hskipc,
          hskipv, hv, hskipt]
        rfl
      | cons k' v' fs' =>
        simp only [jwfObj, Bool.and_eq_true] at hwffs
        obtain ⟨⟨⟨hk', hno'⟩, hwfv'⟩, hwffs'⟩ := hwffs
        have holk' : objLookup k' fs' = none := by
          cases hl : objLookup k' fs' with
          | some w =>
            rw [hl] at hno'
            simp at hno'
          | none => rfl
        have hskipt : skipJsonWs (objTail (JObj.cons k' v' fs') rest)
            = ',' :: ('"' :: (k' ++ ('"' :: ':' :: (render v' ++ objTail fs' rest)))) := by
          have h0 : objTail (JObj.cons k' v' fs') rest
              = ',' :: ('"' :: (k' ++ ('"' :: ':' :: (render v' ++ objTail fs' rest)))) := by
            simp [objTail]
          rw [h0]
          exact skipJsonWs_cons ',' _ (by decide)
        have hskipq : skipJsonWs ('"' :: (k' ++ ('"' :: ':' :: (render v' ++ objTail fs' rest))))
            = '"' :: (k' ++ ('"' :: ':' :: (render v' ++ objTail fs' rest))) :=
          skipJsonWs_cons '"' _ (by decide)
        have hrec : parseObjItems fuel
              ('"' :: (k' ++ ('"' :: ':' :: (render v' ++ objTail fs' rest))))
            = some (.cons k' v' fs', rest) := by
          have h0 := ih3 k' v' fs' rest hk' hwfv' hwffs' holk'
            (by simp only [fuelO] at hf ⊢; omega)
          simpa using h0
        simp only [parseObjItems, List.cons_append, List.append_assoc, hstr, hskipc,
          hskipv, hv, hskipt, hskipq, hrec, objCombine_of_none k v _ holk]

mutual
/-- Shared helper: fuel bound for a value in terms of its rendering. -/
theorem fuelV_le : ∀ (v : JVal), fuelV v + 1 ≤ 2 * (render v).length
  | .jnull => by decide
  | .jbool b => by cases b <;> decide
  | .jnum n => by
    obtain ⟨c, t, hct, _, _, _⟩ := render_head (.jnum n)
    rw [hct]
    simp only [fuelV, List.length_cons]
    omega
  | .jstr s => by
    show fuelV (JVal.jstr s) + 1 ≤ 2 * (('"' :: s ++ ['"']) : Str).length
    simp only [fuelV, List.length_append, List.length_cons, List.length_singleton]
    omega
  | .jarr xs => by
    have h := fuelA_le xs
    show fuelV (JVal.jarr xs) + 1
        ≤ 2 * (('[' :: joinWithChar ',' (renderArrList xs) ++ [']']) : Str).length
    simp only [fuelV, List.length_append, List.length_cons, List.length_singleton] at h ⊢
    omega
  | .jobj fs => by
    have h := fuelO_le fs
    show fuelV (JVal.jobj fs) + 1
        ≤ 2 * (('\x7b' :: joinWithChar ',' (renderObjList fs) ++ ['\x7d']) : Str).length
    simp only [fuelV, List.length_append, List.length_cons, List.length_singleton] at h ⊢
    omega
/-- Shared helper: fuel bound for array elements. -/
theorem fuelA_le : ∀ (xs : JArr),
    fuelA xs ≤ 2 * (joinWithChar ',' (renderArrList xs)).length + 1
  | .nil => by simp [fuelA]
  | .cons x .nil => by
    have hx := fuelV_le x
    have h1 : joinWithChar ',' (renderArrList (JArr.cons x JArr.nil)) = render x := rfl
    rw [h1]
    simp only [fuelA]
    omega
  | .cons x (.cons y ys) => by
    have hx := fuelV_le x
    have hrec : fuelA (JArr.cons y ys)
        ≤ 2 * (joinWithChar ',' (render y :: renderArrList ys)).length + 1 :=
      fuelA_le (JArr.cons y ys)
    have h1 : joinWithChar ',' (renderArrList (JArr.cons x (JArr.cons y ys)))
        = render x ++ ',' :: joinWithChar ',' (render y :: renderArrList ys) := rfl
    rw [h1]
    simp only [fuelA, List.length_append, List.length_cons] at hrec ⊢
    omega
/-- Shared helper: fuel bound for object members. -/
theorem fuelO_le : ∀ (fs : JObj),
    fuelO fs ≤ 2 * (joinWithChar ',' (renderObjList fs)).length + 1
  | .nil => by simp [fuelO]
  | .cons k v .nil => by
    have hv := fuelV_le v
    have h1 : joinWithChar ',' (renderObjList (JObj.cons k v JObj.nil))
        = '"' :: k ++ '"' :: ':' :: render v := rfl
    rw [h1]
    simp only [fuelO, List.length_append, List.length_cons]
    omega
  | .cons k v (.cons k' v' fs') => by
    have hv := fuelV_le v
    have hrec : fuelO (JObj.cons k' v' fs')
        ≤ 2 * (joinWithChar ','
            (('"' :: k' ++ '"' :: ':' :: render v') :: renderObjList fs')).length + 1 :=
      fuelO_le (JObj.cons k' v' fs')
    have h1 : joinWithChar ',' (renderObjList (JObj.cons k v (JObj.cons k' v' fs')))
        = ('"' :: k ++ '"' :: ':' :: render v) ++ ',' :: joinWithChar ','
            (('"' :: k' ++ '"' :: ':' :: render v') :: renderObjList fs') := rfl
    rw [h1]
    simp only [fuelO, List.length_append, List.length_cons] at hrec ⊢
    omega
end

/-- Shared helper: the default fuel suffices for a rendered value. -/
theorem fuelV_le_jsonFuel (v : JVal) : fuelV v ≤ jsonFuel (render v) := by
  have := fuelV_le v
  simp only [jsonFuel]
  omega

/-- Shared helper: parsing a rendered well-formed value gives it back. -/
theorem parseJson_render (v : JVal) (h : jwf v = true) : parseJson (render v) = some v := by
  obtain ⟨c, t, hct, hws, _, _⟩ := render_head v
  have hskip : skipJsonWs (render v) = render v := by
    rw [hct]
    exact skipJsonWs_cons c t hws
  have hp : parseVal (jsonFuel (render v)) (render v ++ []) = some (v, []) :=
    (parse_render_aux (jsonFuel (render v))).1 v [] h (Or.inl rfl) (fuelV_le_jsonFuel v)
  rw [List.append_nil] at hp
  simp only [parseJson, hskip, hp]
  rfl

/-- Shared helper: string literals read by the parser are escape-free. -/
theorem readJStr_wf : ∀ (s str rest : Str), readJStr s = some (str, rest) →
    str.all (fun c => isJStrChar c) = true := by
  intro s
  induction s with
  | nil =>
    intro str rest h
    exact absurd h (by simp [readJStr])
  | cons c cs ih =>
    intro str rest h
    simp only [readJStr] at h
    by_cases hq : c = '"'
    · rw [if_pos hq] at h
      simp at h
      rw [h.1]
      rfl
    · rw [if_neg hq] at h
      by_cases hc : isJStrChar c = true
      · rw [if_pos hc] at h
        cases hr : readJStr cs with
        | none =>
          rw [hr] at h
          exact absurd h (by simp)
        | some p =>
          obtain ⟨s', rest'⟩ := p
          rw [hr] at h
          simp at h
          rw [← h.1, List.all_cons, hc, ih s' rest' hr]
          rfl
      · rw [if_neg hc] at h
        exact absurd h (by simp)

/-- Shared helper: a value stored in a well-formed object is well formed. -/
theorem objLookup_wf : ∀ (fs : JObj) (k : Str) (w : JVal), jwfObj fs = true →
    objLookup k fs = some w → jwf w = true
  | .nil, k, w => by
    intro _ h
    exact absurd h (by simp [objLookup])
  | .cons k0 v0 tl, k, w => by
    intro hwf h
    simp only [jwfObj, Bool.and_eq_true] at hwf
    obtain ⟨⟨⟨_, _⟩, hv0⟩, htl⟩ := hwf
    simp only [objLookup] at h
    by_cases he : k = k0
    · rw [if_pos he] at h
      simp at h
      rw [← h]
      exact hv0
    · rw [if_neg he] at h
      exact objLookup_wf tl k w htl h

/-- Shared helper: erasing cannot create a key. -/
theorem objLookup_erase_isSome : ∀ (fs : JObj) (k k' : Str),
    (objLookup k' (objErase k fs)).isSome = true → (objLookup k' fs).isSome = true
  | .nil, k, k' => by
    intro h
    exact h
  | .cons k0 v0 tl, k, k' => by
    intro h
    simp only [objErase] at h
    simp only [objLookup]
    by_cases he : k = k0
    · rw [if_pos he] at h
      by_cases he' : k' = k0
      · rw [if_pos he']
        rfl
      · rw [if_neg he']
        rw [show objLookup k' tl = objLookup k' tl from rfl] at h
        exact h
    · rw [if_neg he] at h
      simp only [objLookup] at h
      by_cases he' : k' = k0
      · rw [if_pos he'] at h ⊢
        exact h
      · rw [if_neg he'] at h ⊢
        exact objLookup_erase_isSome tl k k' h

/-- Shared helper: erasing preserves object well-formedness. -/
theorem jwfObj_erase : ∀ (fs : JObj) (k : Str), jwfObj fs = true →
    jwfObj (objErase k fs) = true
  | .nil, k => by
    intro h
    exact h
  | .cons k0 v0 tl, k => by
    intro hwf
    simp only [jwfObj, Bool.and_eq_true] at hwf
    obtain ⟨⟨⟨hk0, hno⟩, hv0⟩, htl⟩ := hwf
    simp only [objErase]
    by_cases he : k = k0
    · rw [if_pos he]
      exact htl
    · rw [if_neg he]
      simp only [jwfObj, Bool.and_eq_true]
      refine ⟨⟨⟨hk0, ?_⟩, hv0⟩, jwfObj_erase tl k htl⟩
      cases hl : objLookup k0 (objErase k tl) with
      | none => rfl
      | some w =>
        have : (objLookup k0 tl).isSome = true :=
          objLookup_erase_isSome tl k k0 (by rw [hl]; rfl)
        cases hl0 : objLookup k0 tl with
        | none =>
          rw [hl0] at this
          exact absurd this (by decide)
        | some w0 =>
          rw [hl0] at hno
          simp at hno

/-- Shared helper: the first occurrence of a key is gone after erasing it
from a duplicate-free object. -/
theorem objLookup_erase_self : ∀ (fs : JObj) (k : Str), jwfObj fs = true →
    objLookup k (objErase k fs) = none
  | .nil, k => by
    intro _
    rfl
  | .cons k0 v0 tl, k => by
    intro hwf
    simp only [jwfObj, Bool.and_eq_true] at hwf
    obtain ⟨⟨⟨_, hno⟩, _⟩, htl⟩ := hwf
    simp only [objErase]
    by_cases he : k = k0
    · rw [if_pos he]
      cases hl : objLookup k tl with
      | none => rfl
      | some w =>
        rw [← he] at hno
        rw [hl] at hno
        simp at hno
    · rw [if_neg he]
      simp only [objLookup, if_neg he]
      exact objLookup_erase_self tl k htl

/-- Shared helper: the parser's duplicate-key resolution preserves
well-formedness. -/
theorem jwfObj_combine (k : Str) (v : JVal) (fs : JObj)
    (hk : k.all (fun c => isJStrChar c) = true) (hv : jwf v = true)
    (hfs : jwfObj fs = true) : jwfObj (objCombine k v fs) = true := by
  cases hl : objLookup k fs with
  | none =>
    simp only [objCombine, hl, jwfObj, Bool.and_eq_true]
    exact ⟨⟨⟨hk, rfl⟩, hv⟩, hfs⟩
  | some w =>
    simp only [objCombine, hl, jwfObj, Bool.and_eq_true]
    refine ⟨⟨⟨hk, ?_⟩, objLookup_wf fs k w hfs hl⟩, jwfObj_erase fs k hfs⟩
    rw [objLookup_erase_self fs k hfs]
    rfl

/-- Shared helper: every value the parser produces is well formed
(mutual statement for values, array items and object members). -/
theorem parse_wf_aux : ∀ (fuel : Nat),
    (∀ (s : Str) (v : JVal) (rest : Str), parseVal fuel s = some (v, rest) →
      jwf v = true) ∧
    (∀ (s : Str) (xs : JArr) (rest : Str), parseArrItems fuel s = some (xs, rest) →
      jwfArr xs = true) ∧
    (∀ (s : Str) (fs : JObj) (rest : Str), parseObjItems fuel s = some (fs, rest) →
      jwfObj fs = true) := by
  intro fuel
  induction fuel with
  | zero =>
    refine ⟨?_, ?_, ?_⟩
    · intro s v rest h
      exact absurd h (by simp [parseVal])
    · intro s xs rest h
      exact absurd h (by simp [parseArrItems])
    · intro s fs rest h
      exact absurd h (by simp [parseObjItems])
  | succ fuel ih =>
    obtain ⟨ih1, ih2, ih3⟩ := ih
    refine ⟨?_, ?_, ?_⟩
    · intro s v rest h
      cases s with
      | nil => exact absurd h (by simp [parseVal])
      | cons c cs =>
        simp only [parseVal] at h
        by_cases h1 : c = 'n'
        · rw [if_pos h1] at h
          by_cases hs : strStarts ("ull".toList) cs = true
          · rw [if_pos hs] at h
            simp at h
            rw [← h.1]
            rfl
          · rw [if_neg hs] at h
            exact absurd h (by simp)
        · rw [if_neg h1] at h
          by_cases h2 : c = 't'
          · rw [if_pos h2] at h
            by_cases hs : strStarts ("rue".toList) cs = true
            · rw [if_pos hs] at h
              simp at h
              rw [← h.1]
              rfl
            · rw [if_neg hs] at h
              exact absurd h (by simp)
          · rw [if_neg h2] at h
            by_cases h3 : c = 'f'
            · rw [if_pos h3] at h
              by_cases hs : strStarts ("alse".toList) cs = true
              · rw [if_pos hs] at h
                simp at h
                rw [← h.1]
                rfl
              · rw [if_neg hs] at h
                exact absurd h (by simp)
            · rw [if_neg h3] at h
              by_cases h4 : c = '"'
              · rw [if_pos h4] at h
                cases hr : readJStr cs with
                | none =>
                  rw [hr] at h
                  exact absurd h (by simp)
                | some p =>
                  obtain ⟨str, r'⟩ := p
                  rw [hr] at h
                  simp at h
                  rw [← h.1]
                  exact readJStr_wf cs str r' hr
              · rw [if_neg h4] at h
                by_cases h5 : c = '-'
                · rw [if_pos h5] at h
                  cases hr : readJNat cs with
                  | none =>
                    rw [hr] at h
                    exact absurd h (by simp)
                  | some p =>
                    rw [hr] at h
                    simp at h
                    rw [← h.1]
                    rfl
                · rw [if_neg h5] at h
                  by_cases h6 : c = '['
                  · rw [if_pos h6] at h
                    split at h
                    · simp at h
                      rw [← h.1]
                      rfl
                    · split at h
                      · next xs r' heq =>
                        simp at h
                        rw [← h.1]
                        exact ih2 (skipJsonWs cs) xs r' heq
                      · exact absurd h (by simp)
                  · rw [if_neg h6] at h
                    by_cases h7 : c = '\x7b'
                    · rw [if_pos h7] at h
                      split at h
                      · simp at h
                        rw [← h.1]
                        rfl
                      · split at h
                        · next fs r' heq =>
                          simp at h
                          rw [← h.1]
                          exact ih3 (skipJsonWs cs) fs r' heq
                        · exact absurd h (by simp)
                    · rw [if_neg h7] at h
                      cases hr : readJNat (c :: cs) with
                      | none =>
                        rw [hr] at h
                        exact absurd h (by simp)
                      | some p =>
                        rw [hr] at h
                        simp at h
                        rw [← h.1]
                        rfl
    · intro s xs rest h
      simp only [parseArrItems] at h
      split at h
      · next v r' heq =>
        have hv : jwf v = true := ih1 s v r' heq
        split at h
        · next r2 heq2 =>
          split at h
          · next xs' r3 heq3 =>
            simp at h
            rw [← h.1]
            simp only [jwfArr, Bool.and_eq_true]
            exact ⟨hv, ih2 _ xs' r3 heq3⟩
          · exact absurd h (by simp)
        · next r2 heq2 =>
          simp at h
          rw [← h.1]
          simp only [jwfArr, Bool.and_eq_true]
          exact ⟨hv, trivial⟩
        · exact absurd h (by simp)
      · exact absurd h (by simp)
    · intro s fs rest h
      simp only [parseObjItems] at h
      split at h
      · next r1 =>
        split at h
        · next k r2 heqk =>
          have hk : k.all (fun c => isJStrChar c) = true := readJStr_wf r1 k r2 heqk
          split at h
          · next r3 heq3 =>
            split at h
            · next v r4 heqv =>
              have hv : jwf v = true := ih1 _ v r4 heqv
              split at h
              · next r5 heq5 =>
                split at h
                · next fs' r6 heq6 =>
                  simp at h
                  rw [← h.1]
                  exact jwfObj_combine k v fs' hk hv (ih3 _ fs' r6 heq6)
                · exact absurd h (by simp)
              · next r5 heq5 =>
                simp at h
                rw [← h.1]
                exact jwfObj_combine k v .nil hk hv rfl
              · exact absurd h (by simp)
            · exact absurd h (by simp)
          · exact absurd h (by simp)
        · exact absurd h (by simp)
      · exact absurd h (by simp)

/-- Shared helper: `JSON.parse` output is well formed. -/
theorem parseJson_wf (s : Str) (v : JVal) (h : parseJson s = some v) : jwf v = true := by
  simp only [parseJson] at h
  split at h
  · next v' rest heq =>
    split at h
    · simp at h
      rw [← h]
      exact (parse_wf_aux (jsonFuel s)).1 (skipJsonWs s) v' rest heq
    · exact absurd h (by simp)
  · exact absurd h (by simp)

/-- Shared helper: list round trip for object members. -/
theorem JObj_toList_ofList : ∀ (l : List (Str × JVal)), (JObj.ofList l).toList = l
  | [] => rfl
  | (k, v) :: tl => by
    simp only [JObj.ofList, JObj.toList]
    rw [JObj_toList_ofList tl]

/-- Shared helper: member map of the value-normalization pass. -/
theorem sokObj_toList : ∀ (fs : JObj),
    (sortObjectKeysObj fs).toList = fs.toList.map (fun p => (p.1, sortObjectKeys p.2))
  | .nil => rfl
  | .cons k v tl => by
    simp only [sortObjectKeysObj, JObj.toList, List.map_cons]
    rw [sokObj_toList tl]

/-- Shared helper: value normalization of a member list. -/
theorem sokObj_ofList : ∀ (l : List (Str × JVal)),
    sortObjectKeysObj (JObj.ofList l) = JObj.ofList (l.map (fun p => (p.1, sortObjectKeys p.2)))
  | [] => rfl
  | (k, v) :: tl => by
    simp only [JObj.ofList, sortObjectKeysObj, List.map_cons]
    rw [sokObj_ofList tl]

/-- Shared helper: value normalization commutes with ordered insertion
(the comparison looks only at keys, which it preserves). -/
theorem orderedInsert_sok (a : Str × JVal) : ∀ (l : List (Str × JVal)),
    (List.orderedInsert (fun x y => fieldLe x y) a l).map
        (fun p => (p.1, sortObjectKeys p.2))
      = List.orderedInsert (fun x y => fieldLe x y)
          (a.1, sortObjectKeys a.2) (l.map (fun p => (p.1, sortObjectKeys p.2)))
  | [] => rfl
  | b :: tl => by
    simp only [List.orderedInsert, List.map_cons]
    by_cases hle : fieldLe a b = true
    · rw [if_pos hle,
        if_pos (show fieldLe (a.1, sortObjectKeys a.2) (b.1, sortObjectKeys b.2) = true from hle)]
      simp
    · rw [if_neg hle,
        if_neg (show ¬ fieldLe (a.1, sortObjectKeys a.2) (b.1, sortObjectKeys b.2) = true from hle)]
      simp only [List.map_cons]
      rw [orderedInsert_sok a tl]

/-- Shared helper: value normalization commutes with the key sort. -/
theorem insertionSort_sok : ∀ (l : List (Str × JVal)),
    (List.insertionSort (fun x y => fieldLe x y) l).map (fun p => (p.1, sortObjectKeys p.2))
      = List.insertionSort (fun x y => fieldLe x y)
          (l.map (fun p => (p.1, sortObjectKeys p.2)))
  | [] => rfl
  | a :: tl => by
    simp only [List.insertionSort, List.map_cons]
    rw [orderedInsert_sok a (List.insertionSort (fun x y => fieldLe x y) tl),
      insertionSort_sok tl]

/-- Shared helper: value normalization commutes with `sortFields`. -/
theorem sokObj_sortFields (fs : JObj) :
    sortObjectKeysObj (sortFields fs) = sortFields (sortObjectKeysObj fs) := by
  unfold sortFields
  rw [sokObj_ofList, insertionSort_sok, ← sokObj_toList]

/-- Shared helper: the key sort is idempotent. -/
theorem sortFields_sortFields (fs : JObj) : sortFields (sortFields fs) = sortFields fs := by
  haveI instTot : IsTotal (Str × JVal) (fun a b => fieldLe a b = true) :=
    ⟨fun a b => by
      simp only [fieldLe, decide_eq_true_eq]
      exact le_total a.1 b.1⟩
  haveI instTrans : IsTrans (Str × JVal) (fun a b => fieldLe a b = true) :=
    ⟨fun a b c hab hbc => by
      simp only [fieldLe, decide_eq_true_eq] at hab hbc ⊢
      exact le_trans hab hbc⟩
  show sortFields (JObj.ofList (List.insertionSort (fun a b => fieldLe a b) fs.toList))
      = JObj.ofList (List.insertionSort (fun a b => fieldLe a b) fs.toList)
  unfold sortFields
  rw [JObj_toList_ofList,
    List.Sorted.insertionSort_eq (List.sorted_insertionSort (fun a b => fieldLe a b) fs.toList)]

mutual
/-- Shared helper: `sortObjectKeys` is idempotent. -/
theorem sok_idem : ∀ (v : JVal), sortObjectKeys (sortObjectKeys v) = sortObjectKeys v
  | .jnull => rfl
  | .jbool b => rfl
  | .jnum n => rfl
  | .jstr s => rfl
  | .jarr xs => by
    simp only [sortObjectKeys]
    rw [sokArr_idem xs]
  | .jobj fs => by
    simp only [sortObjectKeys]
    rw [sokObj_sortFields (sortObjectKeysObj fs), sokObjComp_idem fs, sortFields_sortFields]
/-- Shared helper: elementwise idempotence for arrays. -/
theorem sokArr_idem : ∀ (xs : JArr),
    sortObjectKeysArr (sortObjectKeysArr xs) = sortObjectKeysArr xs
  | .nil => rfl
  | .cons x xs => by
    simp only [sortObjectKeysArr]
    rw [sok_idem x, sokArr_idem xs]
/-- Shared helper: value-wise idempotence for object members. -/
theorem sokObjComp_idem : ∀ (fs : JObj),
    sortObjectKeysObj (sortObjectKeysObj fs) = sortObjectKeysObj fs
  | .nil => rfl
  | .cons k v fs => by
    simp only [sortObjectKeysObj]
    rw [sok_idem v, sokObjComp_idem fs]
end

/-- Shared helper: key presence matches membership in the key list. -/
theorem objLookup_isSome_iff : ∀ (fs : JObj) (k : Str),
    (objLookup k fs).isSome = true ↔ k ∈ fs.toList.map Prod.fst
  | .nil, k => by simp [objLookup, JObj.toList]
  | .cons k0 v0 tl, k => by
    simp only [objLookup, JObj.toList, List.map_cons, List.mem_cons]
    by_cases he : k = k0
    · rw [if_pos he]
      exact ⟨fun _ => Or.inl he, fun _ => rfl⟩
    · rw [if_neg he]
      rw [objLookup_isSome_iff tl k]
      exact ⟨fun h => Or.inr h, fun h => h.resolve_left he⟩

/-- Shared helper: object well-formedness as a list property. -/
theorem jwfObj_iff : ∀ (fs : JObj), jwfObj fs = true ↔
    ((∀ p ∈ fs.toList, p.1.all (fun c => isJStrChar c) = true ∧ jwf p.2 = true) ∧
      (fs.toList.map Prod.fst).Nodup)
  | .nil => by simp [jwfObj, JObj.toList]
  | .cons k v tl => by
    simp only [jwfObj, Bool.and_eq_true, JObj.toList, List.map_cons, List.nodup_cons,
      List.mem_cons]
    constructor
    · intro h
      obtain ⟨⟨⟨hk, hno⟩, hv⟩, htl⟩ := h
      obtain ⟨hmem, hnd⟩ := (jwfObj_iff tl).1 htl
      refine ⟨?_, ?_, hnd⟩
      · intro p hp
        cases hp with
        | inl he =>
          rw [he]
          exact ⟨hk, hv⟩
        | inr hm => exact hmem p hm
      · intro hmemk
        have := (objLookup_isSome_iff tl k).2 hmemk
        rw [this] at hno
        exact Bool.noConfusion hno
    · intro h
      obtain ⟨hmem, hnk, hnd⟩ := h
      obtain ⟨hk, hv⟩ := hmem (k, v) (Or.inl rfl)
      refine ⟨⟨⟨hk, ?_⟩, hv⟩, (jwfObj_iff tl).2 ⟨fun p hp => hmem p (Or.inr hp), hnd⟩⟩
      cases hl : objLookup k tl with
      | none => rfl
      | some w =>
        have : (objLookup k tl).isSome = true := by rw [hl]; rfl
        exact absurd ((objLookup_isSome_iff tl k).1 this) hnk

/-- Shared helper: sorting the members preserves well-formedness. -/
theorem jwfObj_sortFields (fs : JObj) (h : jwfObj fs = true) :
    jwfObj (sortFields fs) = true := by
  obtain ⟨hmem, hnd⟩ := (jwfObj_iff fs).1 h
  apply (jwfObj_iff (sortFields fs)).2
  have hperm : (List.insertionSort (fun a b => fieldLe a b) fs.toList).Perm fs.toList :=
    List.perm_insertionSort _ _
  have htl : (sortFields fs).toList = List.insertionSort (fun a b => fieldLe a b) fs.toList := by
    unfold sortFields
    rw [JObj_toList_ofList]
  rw [htl]
  exact ⟨fun p hp => hmem p (hperm.subset hp), ((hperm.map Prod.fst).nodup_iff).2 hnd⟩

/-- Shared helper: value normalization leaves lookups in place. -/
theorem objLookup_sokObj : ∀ (fs : JObj) (k : Str),
    objLookup k (sortObjectKeysObj fs) = (objLookup k fs).map sortObjectKeys
  | .nil, k => rfl
  | .cons k0 v0 tl, k => by
    simp only [sortObjectKeysObj, objLookup]
    by_cases he : k = k0
    · rw [if_pos he, if_pos he]
      rfl
    · rw [if_neg he, if_neg he]
      exact objLookup_sokObj tl k

mutual
/-- Shared helper: `sortObjectKeys` preserves well-formedness. -/
theorem jwf_sok : ∀ (v : JVal), jwf v = true → jwf (sortObjectKeys v) = true
  | .jnull => fun h => h
  | .jbool b => fun h => h
  | .jnum n => fun h => h
  | .jstr s => fun h => h
  | .jarr xs => fun h => by
    simp only [sortObjectKeys]
    show jwfArr (sortObjectKeysArr xs) = true
    exact jwfArr_sok xs h
  | .jobj fs => fun h => by
    simp only [sortObjectKeys]
    show jwfObj (sortFields (sortObjectKeysObj fs)) = true
    exact jwfObj_sortFields _ (jwfObj_sok fs h)
/-- Shared helper: elementwise preservation for arrays. -/
theorem jwfArr_sok : ∀ (xs : JArr), jwfArr xs = true → jwfArr (sortObjectKeysArr xs) = true
  | .nil => fun h => h
  | .cons x xs => fun h => by
    simp only [jwfArr, Bool.and_eq_true] at h ⊢
    exact ⟨jwf_sok x h.1, jwfArr_sok xs h.2⟩
/-- Shared helper: value-wise preservation for object members. -/
theorem jwfObj_sok : ∀ (fs : JObj), jwfObj fs = true → jwfObj (sortObjectKeysObj fs) = true
  | .nil => fun h => h
  | .cons k v tl => fun h => by
    simp only [sortObjectKeysObj, jwfObj, Bool.and_eq_true] at h ⊢
    obtain ⟨⟨⟨hk, hno⟩, hv⟩, htl⟩ := h
    refine ⟨⟨⟨hk, ?_⟩, jwf_sok v hv⟩, jwfObj_sok tl htl⟩
    rw [objLookup_sokObj tl k]
    cases hl : objLookup k tl with
    | none => rfl
    | some w =>
      rw [hl] at hno
      exact absurd hno (by simp)
end
/-- Shared helper: value normalization commutes with member erasure. -/
theorem objErase_sokObj : ∀ (fs : JObj) (k : Str),
    sortObjectKeysObj (objErase k fs) = objErase k (sortObjectKeysObj fs)
  | .nil, k => rfl
  | .cons k0 v0 tl, k => by
    simp only [objErase, sortObjectKeysObj]
    by_cases he : k = k0
    · rw [if_pos he, if_pos he]
    · rw [if_neg he, if_neg he]
      simp only [sortObjectKeysObj]
      rw [objErase_sokObj tl k]

/-- Shared helper: a looked-up member can be moved to the front. -/
theorem toList_erase_perm : ∀ (fs : JObj) (k : Str) (w : JVal),
    objLookup k fs = some w → fs.toList.Perm ((k, w) :: (objErase k fs).toList)
  | .nil, k, w => by
    intro h
    exact absurd h (by simp [objLookup])
  | .cons k0 v0 tl, k, w => by
    intro h
    simp only [objLookup] at h
    by_cases he : k = k0
    · rw [if_pos he] at h
      simp at h
      simp only [objErase, if_pos he]
      show ((k0, v0) :: tl.toList).Perm ((k, w) :: tl.toList)
      rw [he, h]
    · rw [if_neg he] at h
      simp only [objErase, if_neg he]
      show ((k0, v0) :: tl.toList).Perm ((k, w) :: (k0, v0) :: (objErase k tl).toList)
      exact ((toList_erase_perm tl k w h).cons (k0, v0)).trans
        (List.Perm.swap (k, w) (k0, v0) _)

/-- Shared helper: objects with permuted member lists and duplicate-free
keys sort to the same object. -/
theorem sortFields_eq_of_perm (fs gs : JObj) (hp : fs.toList.Perm gs.toList)
    (hnd : (fs.toList.map Prod.fst).Nodup) : sortFields fs = sortFields gs := by
  haveI instTot : IsTotal (Str × JVal) (fun a b => fieldLe a b = true) :=
    ⟨fun a b => by
      simp only [fieldLe, decide_eq_true_eq]
      exact le_total a.1 b.1⟩
  haveI instTrans : IsTrans (Str × JVal) (fun a b => fieldLe a b = true) :=
    ⟨fun a b c hab hbc => by
      simp only [fieldLe, decide_eq_true_eq] at hab hbc ⊢
      exact le_trans hab hbc⟩
  unfold sortFields
  congr 1
  apply sortedPerm_eq
  · exact (List.perm_insertionSort (fun a b => fieldLe a b) _).trans
      (hp.trans (List.perm_insertionSort (fun a b => fieldLe a b) _).symm)
  · exact List.Pairwise.imp (fun hab => of_decide_eq_true hab)
      (List.sorted_insertionSort (fun a b => fieldLe a b) fs.toList)
  · exact List.Pairwise.imp (fun hab => of_decide_eq_true hab)
      (List.sorted_insertionSort (fun a b => fieldLe a b) gs.toList)
  · exact ((List.perm_insertionSort (fun a b => fieldLe a b) _).map Prod.fst).nodup_iff.2 hnd

mutual
/-- Shared helper: key-permutation-equal well-formed values have equal
canonical forms. -/
theorem sok_congr (v w : JVal) (hp : keyPermEq v w = true) (h1 : jwf v = true)
    (h2 : jwf w = true) : sortObjectKeys v = sortObjectKeys w := by
  cases v with
  | jnull =>
    cases w with
    | jnull => rfl
    | jbool b => exact absurd hp (by simp [keyPermEq])
    | jnum n => exact absurd hp (by simp [keyPermEq])
    | jstr s => exact absurd hp (by simp [keyPermEq])
    | jarr xs => exact absurd hp (by simp [keyPermEq])
    | jobj fs => exact absurd hp (by simp [keyPermEq])
  | jbool a =>
    cases w with
    | jbool b =>
      simp only [keyPermEq, decide_eq_true_eq] at hp
      rw [hp]
    | jnull => exact absurd hp (by simp [keyPermEq])
    | jnum n => exact absurd hp (by simp [keyPermEq])
    | jstr s => exact absurd hp (by simp [keyPermEq])
    | jarr xs => exact absurd hp (by simp [keyPermEq])
    | jobj fs => exact absurd hp (by simp [keyPermEq])
  | jnum a =>
    cases w with
    | jnum b =>
      simp only [keyPermEq, decide_eq_true_eq] at hp
      rw [hp]
    | jnull => exact absurd hp (by simp [keyPermEq])
    | jbool b => exact absurd hp (by simp [keyPermEq])
    | jstr s => exact absurd hp (by simp [keyPermEq])
    | jarr xs => exact absurd hp (by simp [keyPermEq])
    | jobj fs => exact absurd hp (by simp [keyPermEq])
  | jstr a =>
    cases w with
    | jstr b =>
      simp only [keyPermEq, decide_eq_true_eq] at hp
      rw [hp]
    | jnull => exact absurd hp (by simp [keyPermEq])
    | jbool b => exact absurd hp (by simp [keyPermEq])
    | jnum n => exact absurd hp (by simp [keyPermEq])
    | jarr xs => exact absurd hp (by simp [keyPermEq])
    | jobj fs => exact absurd hp (by simp [keyPermEq])
  | jarr xs =>
    cases w with
    | jarr ys =>
      simp only [keyPermEq] at hp
      simp only [sortObjectKeys]
      rw [sokArr_congr xs ys hp h1 h2]
    | jnull => exact absurd hp (by simp [keyPermEq])
    | jbool b => exact absurd hp (by simp [keyPermEq])
    | jnum n => exact absurd hp (by simp [keyPermEq])
    | jstr s => exact absurd hp (by simp [keyPermEq])
    | jobj fs => exact absurd hp (by simp [keyPermEq])
  | jobj fs =>
    cases w with
    | jobj gs =>
      simp only [keyPermEq] at hp
      simp only [sortObjectKeys]
      have hperm : (sortObjectKeysObj fs).toList.Perm ((sortObjectKeysObj gs).toList) :=
        sokObjPerm fs gs hp h1 h2
      have hnd : ((sortObjectKeysObj fs).toList.map Prod.fst).Nodup :=
        ((jwfObj_iff _).1 (jwfObj_sok fs h1)).2
      rw [sortFields_eq_of_perm _ _ hperm hnd]
    | jnull => exact absurd hp (by simp [keyPermEq])
    | jbool b => exact absurd hp (by simp [keyPermEq])
    | jnum n => exact absurd hp (by simp [keyPermEq])
    | jstr s => exact absurd hp (by simp [keyPermEq])
    | jarr xs => exact absurd hp (by simp [keyPermEq])
/-- Shared helper: elementwise congruence for arrays. -/
theorem sokArr_congr (xs ys : JArr) (hp : keyPermEqArr xs ys = true)
    (h1 : jwfArr xs = true) (h2 : jwfArr ys = true) :
    sortObjectKeysArr xs = sortObjectKeysArr ys := by
  cases xs with
  | nil =>
    cases ys with
    | nil => rfl
    | cons y ys' => exact absurd hp (by simp [keyPermEqArr])
  | cons x xs' =>
    cases ys with
    | nil => exact absurd hp (by simp [keyPermEqArr])
    | cons y ys' =>
      simp only [keyPermEqArr, Bool.and_eq_true] at hp
      simp only [jwfArr, Bool.and_eq_true] at h1 h2
      simp only [sortObjectKeysArr]
      rw [sok_congr x y hp.1 h1.1 h2.1, sokArr_congr xs' ys' hp.2 h1.2 h2.2]
/-- Shared helper: key-permutation-equal member lists normalize to
permuted member lists. -/
theorem sokObjPerm (fs gs : JObj) (hp : keyPermEqObj fs gs = true)
    (h1 : jwfObj fs = true) (h2 : jwfObj gs = true) :
    (sortObjectKeysObj fs).toList.Perm ((sortObjectKeysObj gs).toList) := by
  cases fs with
  | nil =>
    have hg : gs = .nil := by simpa [keyPermEqObj] using hp
    rw [hg]
  | cons k v tl =>
    simp only [keyPermEqObj] at hp
    cases hl : objLookup k gs with
    | none =>
      rw [hl] at hp
      exact absurd hp (by simp)
    | some w =>
      rw [hl] at hp
      simp only [Bool.and_eq_true] at hp
      obtain ⟨hvw, htlp⟩ := hp
      simp only [jwfObj, Bool.and_eq_true] at h1
      obtain ⟨⟨⟨hk, hno⟩, hv⟩, htl⟩ := h1
      have hww : jwf w = true := objLookup_wf gs k w h2 hl
      have hrec := sokObjPerm tl (objErase k gs) htlp htl (jwfObj_erase gs k h2)
      have hmap := (toList_erase_perm gs k w hl).map (fun p => (p.1, sortObjectKeys p.2))
      rw [← sokObj_toList gs, List.map_cons, ← sokObj_toList (objErase k gs)] at hmap
      show ((k, sortObjectKeys v) :: (sortObjectKeysObj tl).toList).Perm _
      rw [sok_congr v w hvw hv hww]
      exact (hrec.cons (k, sortObjectKeys w)).trans hmap.symm
end

/-- Shared helper: no fuel level parses the empty string. -/
theorem parseVal_nil : ∀ (fuel : Nat), parseVal fuel [] = none := by
  intro fuel
  cases fuel with
  | zero => rfl
  | succ f => rfl

/-- Shared helper: a vertical-tab-headed text never parses. -/
theorem parseVal_vt (r : Str) : ∀ (fuel : Nat), parseVal fuel ('\x0b' :: r) = none := by
  intro fuel
  cases fuel with
  | zero => rfl
  | succ f => rfl

/-- Shared helper: a form-feed-headed text never parses. -/
theorem parseVal_ff (r : Str) : ∀ (fuel : Nat), parseVal fuel ('\x0c' :: r) = none := by
  intro fuel
  cases fuel with
  | zero => rfl
  | succ f => rfl

/-- Shared helper: an all-whitespace (in the `\s` sense) text is not
JSON: `JSON.parse` skips only space, tab, newline and carriage return,
and a remaining `\v`/`\f` head fails every grammar rule. -/
theorem all_ws_parse_none (b : Str) (h : ∀ c ∈ b, isWsChar c = true) :
    parseJson b = none := by
  cases hsk : skipJsonWs b with
  | nil => simp only [parseJson, hsk, parseVal_nil]
  | cons c r =>
    have hcb : c ∈ b := by
      have hsub : skipJsonWs b <:+ b := List.dropWhile_suffix _
      exact hsub.subset (by rw [hsk]; exact List.mem_cons_self _ _)
    have hw : isWsChar c = true := h c hcb
    have hj : isJsonWs c = false := dropWhile_head_false isJsonWs b c r hsk
    simp only [isWsChar, Bool.or_eq_true, decide_eq_true_eq] at hw
    simp only [isJsonWs, Bool.or_eq_false_iff, decide_eq_false_iff_not] at hj
    obtain ⟨⟨⟨hj1, hj2⟩, hj3⟩, hj4⟩ := hj
    rcases hw with ((((hw | hw) | hw) | hw) | hw) | hw
    · exact absurd hw hj1
    · exact absurd hw hj2
    · exact absurd hw hj3
    · exact absurd hw hj4
    · subst hw
      simp only [parseJson, hsk, parseVal_vt]
    · subst hw
      simp only [parseJson, hsk, parseVal_ff]

/-- Shared helper: a text trimming to the empty string is all
whitespace. -/
theorem jsTrim_nil_all_ws (b : Str) (h : jsTrim b = []) : ∀ c ∈ b, isWsChar c = true := by
  have ht : b.dropWhile isWsChar = [] := by
    cases hd : b.dropWhile isWsChar with
    | nil => rfl
    | cons c r =>
      have hcw : isWsChar c = false := dropWhile_head_false isWsChar b c r hd
      unfold jsTrim at h
      rw [hd] at h
      have h2 : ((c :: r).reverse.dropWhile isWsChar) = [] := by
        rw [← List.reverse_eq_nil_iff]
        simpa using h
      have hall : ∀ x ∈ (c :: r).reverse, isWsChar x = true :=
        List.dropWhile_eq_nil_iff.1 h2
      have := hall c (by simp)
      rw [hcw] at this
      exact Bool.noConfusion this
  intro c hc
  by_cases hw : isWsChar c = true
  · exact hw
  · exfalso
    have : ∀ x ∈ b, isWsChar x = true := List.dropWhile_eq_nil_iff.1 ht
    exact hw (this c hc)

/-- Shared helper: a parseable body text has a nonempty trim (so the
truthiness gate of `generateRequestKey` accepts it). -/
theorem parse_some_trim_ne (b : Str) (v : JVal) (h : parseJson b = some v) :
    jsTrim b ≠ [] := by
  intro htrim
  have := all_ws_parse_none b (jsTrim_nil_all_ws b htrim)
  rw [this] at h
  exact Option.noConfusion h

/-- Shared helper: a parseable body text is nonempty. -/
theorem parse_some_ne (b : Str) (v : JVal) (h : parseJson b = some v) : b ≠ [] := by
  intro he
  rw [he] at h
  rw [show parseJson ([] : Str) = none from rfl] at h
  exact Option.noConfusion h

/-- C5 (amended).  The body-normalization step of `generateRequestKey`
is idempotent on every body text that either (a) parses as JSON neither
before nor after whitespace collapsing, or (b) parses as JSON to a value
whose canonical (key-sorted, compact) serialization is invariant under
whitespace collapsing.  (The counterexample shows the proviso in (b) is
needed: a canonical form holding a whitespace run inside a string scalar
is collapsed further by the second application.) -/
theorem C5_amended_idempotent (b : Str)
    (h : (parseJson b = none ∧ parseJson (normWhitespace b) = none) ∨
      (∃ v, parseJson b = some v ∧
        normWhitespace (render (sortObjectKeys v)) = render (sortObjectKeys v))) :
    normBody (normBody b) = normBody b := by
  cases h with
  | inl hno =>
    obtain ⟨h1, h2⟩ := hno
    have hb : normBody b = normWhitespace b := by
      simp only [normBody, normalizeJson, h1]
      simp
    rw [hb]
    have hb2 : normBody (normWhitespace b) = normWhitespace (normWhitespace b) := by
      simp only [normBody, normalizeJson, h2]
      simp
    rw [hb2, normWhitespace_idem]
  | inr hsome =>
    obtain ⟨v, hv, hws⟩ := hsome
    have hwf : jwf v = true := parseJson_wf b v hv
    have hnj : normalizeJson b = render (sortObjectKeys v) := by
      simp only [normalizeJson, hv]
    by_cases hbe : render (sortObjectKeys v) = b
    · have hb : normBody b = normWhitespace b := by
        simp only [normBody, hnj]
        rw [if_neg (show ¬ render (sortObjectKeys v) ≠ b from fun hc => hc hbe)]
      rw [hbe] at hws
      have hfix : normBody b = b := hb.trans hws
      rw [hfix, hfix]
    · have hb : normBody b = render (sortObjectKeys v) := by
        simp only [normBody, hnj]
        rw [if_pos hbe]
      rw [hb]
      have hparse2 : parseJson (render (sortObjectKeys v)) = some (sortObjectKeys v) :=
        parseJson_render (sortObjectKeys v) (jwf_sok v hwf)
      have hnj2 : normalizeJson (render (sortObjectKeys v)) = render (sortObjectKeys v) := by
        simp only [normalizeJson, hparse2]
        rw [sok_idem v]
      simp only [normBody, hnj2]
      simp only [ne_eq, not_true_eq_false, if_false, ite_false]
      simpa using hws

/-- Witness for C5 (amended): `[1, 2]` parses, its canonical form
`[1,2]` is whitespace-collapse invariant, and body normalization is
idempotent on it. -/
theorem C5_witness :
    (parseJson ("[1, 2]".toList)
        = some (.jarr (.cons (.jnum 1) (.cons (.jnum 2) .nil))) ∧
      normWhitespace (render (sortObjectKeys (JVal.jarr (.cons (.jnum 1) (.cons (.jnum 2) .nil)))))
        = render (sortObjectKeys (JVal.jarr (.cons (.jnum 1) (.cons (.jnum 2) .nil))))) ∧
    normBody (normBody ("[1, 2]".toList)) = normBody ("[1, 2]".toList) :=
  ⟨⟨by decide, by decide⟩,
    C5_amended_idempotent ("[1, 2]".toList)
      (Or.inr ⟨JVal.jarr (.cons (.jnum 1) (.cons (.jnum 2) .nil)), by decide, by decide⟩)⟩

/-- C4 (amended).  For body texts parsing to key-permutation-equal JSON
values, `normalizeJson` outputs are identical, and — provided the shared
canonical serialization is whitespace-collapse invariant — the
normalized bodies and the full signatures are identical too.  (The
proviso is needed because a body already in canonical form falls into
the whitespace-collapsing branch of `generateRequestKey`; see the
counterexample.) -/
theorem C4_amended_signature_congruence (b1 b2 : Str) (v1 v2 : JVal) (m p q : Str)
    (h1 : parseJson b1 = some v1) (h2 : parseJson b2 = some v2)
    (hperm : keyPermEq v1 v2 = true)
    (hws : normWhitespace (render (sortObjectKeys v1)) = render (sortObjectKeys v1)) :
    normalizeJson b1 = normalizeJson b2 ∧ normBody b1 = normBody b2 ∧
      generateRequestKey m p q (some ⟨some b1⟩)
        = generateRequestKey m p q (some ⟨some b2⟩) := by
  have hwf1 : jwf v1 = true := parseJson_wf b1 v1 h1
  have hwf2 : jwf v2 = true := parseJson_wf b2 v2 h2
  have hsok : sortObjectKeys v1 = sortObjectKeys v2 := sok_congr v1 v2 hperm hwf1 hwf2
  have hnj1 : normalizeJson b1 = render (sortObjectKeys v1) := by
    simp only [normalizeJson, h1]
  have hnj2 : normalizeJson b2 = render (sortObjectKeys v1) := by
    simp only [normalizeJson, h2]
    rw [hsok]
  have hnb : ∀ (b : Str), normalizeJson b = render (sortObjectKeys v1) →
      normBody b = render (sortObjectKeys v1) := by
    intro b hnj
    by_cases hbe : render (sortObjectKeys v1) = b
    · simp only [normBody, hnj]
      rw [if_neg (show ¬ render (sortObjectKeys v1) ≠ b from fun hc => hc hbe)]
      rw [← hbe]
      exact hws
    · simp only [normBody, hnj]
      rw [if_pos hbe]
  have hb1 : normBody b1 = render (sortObjectKeys v1) := hnb b1 hnj1
  have hb2 : normBody b2 = render (sortObjectKeys v1) := hnb b2 hnj2
  have hbeq : normBody b1 = normBody b2 := by rw [hb1, hb2]
  refine ⟨by rw [hnj1, hnj2], hbeq, ?_⟩
  have hpd1 : postDataHasText (some ⟨some b1⟩) = some b1 := by
    simp only [postDataHasText]
    rw [if_pos ⟨parse_some_ne b1 v1 h1, parse_some_trim_ne b1 v1 h1⟩]
  have hpd2 : postDataHasText (some ⟨some b2⟩) = some b2 := by
    simp only [postDataHasText]
    rw [if_pos ⟨parse_some_ne b2 v2 h2, parse_some_trim_ne b2 v2 h2⟩]
  simp only [generateRequestKey, hpd1, hpd2, hbeq]

/-- Witness for C4 (amended): the spec's own example pair, with method
`POST`, path `/x` and an empty query. -/
theorem C4_witness :
    (parseJson ("\x7b\"a\":1,\"b\":2\x7d".toList)
        = some (.jobj (.cons ("a".toList) (.jnum 1) (.cons ("b".toList) (.jnum 2) .nil))) ∧
      parseJson ("\x7b\"b\":2,\"a\":1\x7d".toList)
        = some (.jobj (.cons ("b".toList) (.jnum 2) (.cons ("a".toList) (.jnum 1) .nil))) ∧
      keyPermEq
          (.jobj (.cons ("a".toList) (.jnum 1) (.cons ("b".toList) (.jnum 2) .nil)))
          (.jobj (.cons ("b".toList) (.jnum 2) (.cons ("a".toList) (.jnum 1) .nil))) = true) ∧
    normalizeJson ("\x7b\"a\":1,\"b\":2\x7d".toList)
        = normalizeJson ("\x7b\"b\":2,\"a\":1\x7d".toList) ∧
      normBody ("\x7b\"a\":1,\"b\":2\x7d".toList)
        = normBody ("\x7b\"b\":2,\"a\":1\x7d".toList) ∧
      generateRequestKey ("POST".toList) ("/x".toList) []
          (some ⟨some ("\x7b\"a\":1,\"b\":2\x7d".toList)⟩)
        = generateRequestKey ("POST".toList) ("/x".toList) []
          (some ⟨some ("\x7b\"b\":2,\"a\":1\x7d".toList)⟩) :=
  ⟨⟨by decide, by decide, by decide⟩,
    C4_amended_signature_congruence
      ("\x7b\"a\":1,\"b\":2\x7d".toList) ("\x7b\"b\":2,\"a\":1\x7d".toList)
      (.jobj (.cons ("a".toList) (.jnum 1) (.cons ("b".toList) (.jnum 2) .nil)))
      (.jobj (.cons ("b".toList) (.jnum 2) (.cons ("a".toList) (.jnum 1) .nil)))
      ("POST".toList) ("/x".toList) []
      (by decide) (by decide) (by decide) (by decide)⟩
